import Mathlib

/-!
# Verification of the conduwuit room state compressor

Shallow embedding of `src/service/rooms/state_compressor/mod.rs`:
the `StateDiff` codec (`save_statediff` / `get_statediff`), the
materializer (`load_shortstatehash_info`), the layer engine
(`save_state_from_diff`) and the save path (`save_state`), together with
theorems settling the frozen claims about them.

Machine integers (`u64` / `usize`) are modelled as `Nat` with explicit
`2 ^ 64` bounds where overflow matters; fallible operations return
`Option`; byte strings are `List Nat`; the `HashSet<CompressedStateEvent>`
values are `Finset Bytes`.
-/

namespace StateCompressor

/-- Byte strings (`Vec<u8>` / `&[u8]`). A `CompressedStateEvent` is a
byte string of length 16 (`[u8; 2 * size_of::<u64>()]`). -/
abbrev Bytes := List Nat

/-- The `shortstatehash_statediff` column of the database: a point-access
map from the `u64` short-state-hash key to the record's byte value. -/
abbrev DB := Nat → Option Bytes

/-- The `u64` / `usize` overflow bound. -/
def u64Bound : Nat := 2 ^ 64

/-- Big-endian byte encoding of width `w` (`u64::to_be_bytes` is `w = 8`).
Modelled from the spec: byte conversion helpers (`conduit::utils`) are not
under `src/`; the spec fixes big-endian 8-byte encodings. -/
def natToBytesBE : Nat → Nat → Bytes
  | 0, _ => []
  | w + 1, n => natToBytesBE w (n / 256) ++ [n % 256]

/-- Big-endian byte decoding (`utils::u64_from_u8` / `u64_from_bytes`).
Modelled from the spec: byte conversion helpers are not under `src/`. -/
def bytesToNat (bs : Bytes) : Nat := bs.foldl (fun acc b => acc * 256 + b) 0

/-- A well-formed `CompressedStateEvent` value: 16 bytes whose first
8 bytes (the short-state-key) are not all zero, so that the value can
never be confused with the codec's sentinel (spec §4.1). -/
def valid16 (c : Bytes) : Prop := c.length = 16 ∧ c.take 8 ≠ List.replicate 8 0

instance : DecidablePred valid16 := fun c => by unfold valid16; infer_instance

/-- The persisted record type (`struct StateDiff`). -/
structure StateDiff where
  parent : Option Nat
  added : Finset Bytes
  removed : Finset Bytes
deriving DecidableEq

/-- One entry of a materialized stack (`struct ShortStateInfo`). -/
structure ShortStateInfo where
  shortstatehash : Nat
  full_state : Finset Bytes
  added : Finset Bytes
  removed : Finset Bytes
deriving DecidableEq

/-- The byte value written by `save_statediff`: parent (0 if none), the
`added` CSEs, then — iff `removed ≠ ∅` — an all-zero `u64` sentinel
followed by the `removed` CSEs. -/
def save_statediff_value (diff : StateDiff) : Bytes :=
  natToBytesBE 8 (diff.parent.getD 0)
    ++ (diff.added.sort (· ≤ ·)).flatten
    ++ (if diff.removed = ∅ then []
        else natToBytesBE 8 0 ++ (diff.removed.sort (· ≤ ·)).flatten)

/-- `save_statediff`: insert the encoded record under the short-state-hash
key in the `shortstatehash_statediff` column. -/
def save_statediff (db : DB) (shortstatehash : Nat) (diff : StateDiff) : DB :=
  fun k => if k = shortstatehash then some (save_statediff_value diff) else db k

/-- The decode loop of `get_statediff`: walk the body 16 bytes at a time;
in add mode an all-zero first 8 bytes is the sentinel that flips to remove
mode (advancing 8 bytes); otherwise the 16-byte chunk is inserted into the
current set; fewer than 16 remaining bytes terminate the loop. -/
def get_statediff_loop : Bytes → Bool → Finset Bytes → Finset Bytes →
    Finset Bytes × Finset Bytes
  | value, add_mode, added, removed =>
    if h : value.length < 16 then (added, removed)
    else if add_mode ∧ value.take 8 = List.replicate 8 0 then
      get_statediff_loop (value.drop 8) false added removed
    else if add_mode then
      get_statediff_loop (value.drop 16) add_mode (insert (value.take 16) added) removed
    else
      get_statediff_loop (value.drop 16) add_mode added (insert (value.take 16) removed)
  termination_by value _ _ _ => value.length
  decreasing_by
    all_goals simp_all [List.length_drop]; omega

/-- Decoding the byte value of a record, as in `get_statediff` after the
database fetch. `none` models the panic of indexing `value[0..8]` on a
value shorter than 8 bytes; the parent is `value[0..8]` taken as `u64`
if nonzero; the body is decoded by `get_statediff_loop`. -/
def decodeStateDiff (value : Bytes) : Option StateDiff :=
  if value.length < 8 then none
  else
    let parent := bytesToNat (value.take 8)
    let (added, removed) := get_statediff_loop (value.drop 8) true ∅ ∅
    some ⟨if parent = 0 then none else some parent, added, removed⟩

/-- `get_statediff`: fetch the record value for a short-state-hash from
the column and decode it. -/
def get_statediff (db : DB) (shortstatehash : Nat) : Option StateDiff :=
  (db shortstatehash).bind decodeStateDiff

/-- `load_shortstatehash_info` (without the pass-through LRU cache, which
memoizes exactly this function): fetch the diff; on a parent, recursively
load the parent stack, extend the tip's full state with `added`, remove
each of `removed`, and push the new entry; a parentless diff is the
singleton stack whose full state is its `added` set. The `fuel` argument
makes the unbounded recursion of the source structural; every reachable
chain is loaded exactly once the fuel exceeds its length. -/
def load_shortstatehash_info : Nat → DB → Nat → Option (List ShortStateInfo)
  | 0, _, _ => none
  | fuel + 1, db, shortstatehash =>
    match get_statediff db shortstatehash with
    | none => none
    | some diff =>
      match diff.parent with
      | some parent =>
        match load_shortstatehash_info fuel db parent with
        | none => none
        | some response =>
          match response.getLast? with
          | none => none
          | some last =>
            some (response ++
              [⟨shortstatehash, (last.full_state ∪ diff.added) \ diff.removed,
                diff.added, diff.removed⟩])
      | none =>
        some [⟨shortstatehash, diff.added, diff.added, diff.removed⟩]

/-- The first in-place pass of the fold in `save_state_from_diff`
(lines 211–218 / 268–275): for each element of the incoming `removed`
diff, remove it from the parent's `added` copy; if it was absent there,
insert it into the parent's `removed` copy. The iteration order is the
canonical enumeration of the `HashSet`. -/
def fold_removed_pass (parent_new parent_removed : Finset Bytes)
    (statediffremoved : List Bytes) : Finset Bytes × Finset Bytes :=
  statediffremoved.foldl
    (fun s removed =>
      if removed ∈ s.1 then (s.1.erase removed, s.2) else (s.1, insert removed s.2))
    (parent_new, parent_removed)

/-- The second in-place pass of the fold in `save_state_from_diff`
(lines 220–227 / 277–284): for each element of the incoming `added` diff,
remove it from the parent's `removed` copy; if it was absent there,
insert it into the parent's `added` copy. -/
def fold_added_pass (parent_new parent_removed : Finset Bytes)
    (statediffnew : List Bytes) : Finset Bytes × Finset Bytes :=
  statediffnew.foldl
    (fun s new =>
      if new ∈ s.2 then (s.1, s.2.erase new) else (insert new s.1, s.2))
    (parent_new, parent_removed)

/-- Both passes of the fold: merge the incoming `(added, removed)` change
into owned copies of the popped parent layer's `(added, removed)`. -/
def foldDiff (parent_added parent_removed statediffnew statediffremoved : Finset Bytes) :
    Finset Bytes × Finset Bytes :=
  let s1 := fold_removed_pass parent_added parent_removed
    (statediffremoved.sort (· ≤ ·))
  fold_added_pass s1.1 s1.2 (statediffnew.sort (· ≤ ·))

/-- `checked!(a + b)` on `usize`: `none` is the `ArithmeticOverflow` error. -/
def checkedAdd (a b : Nat) : Option Nat :=
  if a + b < u64Bound then some (a + b) else none

/-- `checked!(a * b)` on `usize`: `none` is the `ArithmeticOverflow` error. -/
def checkedMul (a b : Nat) : Option Nat :=
  if a * b < u64Bound then some (a * b) else none

/-- The layer engine `save_state_from_diff`. The mutable store is passed
and returned explicitly; the second component is `some ()` on success and
`none` on an `ArithmeticOverflow` error (in which case the store component
carries whatever writes were performed — none, as proved below).
`parent_states` is the root-first stack; `Vec::pop` is `getLast?` /
`dropLast`. -/
def save_state_from_diff (db : DB) (shortstatehash : Nat)
    (statediffnew statediffremoved : Finset Bytes) (diff_to_sibling : Nat)
    (parent_states : List ShortStateInfo) : DB × Option Unit :=
  match checkedAdd statediffnew.card statediffremoved.card with
  | none => (db, none)
  | some diffsum =>
    if parent_states.length > 3 then
      match parent_states.getLast? with
      | none => (db, none)
      | some parent =>
        let folded := foldDiff parent.added parent.removed statediffnew statediffremoved
        save_state_from_diff db shortstatehash folded.1 folded.2 diffsum
          parent_states.dropLast
    else if parent_states.isEmpty then
      (save_statediff db shortstatehash ⟨none, statediffnew, statediffremoved⟩, some ())
    else
      match parent_states.getLast? with
      | none => (db, none)
      | some parent =>
        match checkedAdd parent.added.card parent.removed.card with
        | none => (db, none)
        | some parent_diff =>
          match checkedMul diffsum diffsum with
          | none => (db, none)
          | some lhs =>
            match (checkedMul 2 diff_to_sibling).bind
                (fun s => checkedMul s parent_diff) with
            | none => (db, none)
            | some rhs =>
              if lhs ≥ rhs then
                let folded := foldDiff parent.added parent.removed
                  statediffnew statediffremoved
                save_state_from_diff db shortstatehash folded.1 folded.2 diffsum
                  parent_states.dropLast
              else
                (save_statediff db shortstatehash
                  ⟨some parent.shortstatehash, statediffnew, statediffremoved⟩, some ())
  termination_by parent_states.length
  decreasing_by
    all_goals
      cases parent_states with
      | nil => simp_all
      | cons x xs => simp [List.length_dropLast]

/-- Modelled from the spec: `utils::calculate_hash` is not under `src/`.
Spec §4.5 step 2 requires `state_hash = stable_hash(sorted_bytes_of(new_set))`:
a deterministic hash of the CSE byte strings fed in canonical
(lexicographic) order, independent of iteration order. The hash value is
modelled as the canonically sorted key list itself (a perfect stable
hash, injective on set contents). -/
def calculate_hash (keys : List Bytes) : List Bytes :=
  keys.mergeSort (fun a b => a ≤ b)

/-- The whole-system state for the save path on one room: the
`shortstatehash_statediff` column, the state-hash interner table with its
next fresh id, and the room-state index entry for the room. -/
structure Sys where
  db : DB
  shorttable : List (List Bytes × Nat)
  next : Nat
  roomSsh : Option Nat

/-- Modelled from the spec: `rooms::short::get_or_create_shortstatehash`
is not under `src/`. Spec §6: idempotent interning of a state hash, never
returning 0, with `existed = true` iff the hash was previously interned. -/
def get_or_create_shortstatehash (σ : Sys) (state_hash : List Bytes) :
    Nat × Bool × Sys :=
  match (σ.shorttable.find? (fun e => e.1 = state_hash)) with
  | some e => (e.2, true, σ)
  | none =>
    (σ.next, false,
      { σ with shorttable := (state_hash, σ.next) :: σ.shorttable, next := σ.next + 1 })

/-- `save_state`: look up the previous room SSH, hash and intern the new
set, return early when the room already points at the interned SSH,
otherwise load the previous stack (a failed load degrades to an empty
stack), diff against its tip, and hand the diff to the layer engine
unless the hash already existed. Returns the updated system and
`some (ssh, added, removed)` on success, `none` on error. -/
def save_state (σ : Sys) (new_state_ids_compressed : Finset Bytes) :
    Sys × Option (Nat × Finset Bytes × Finset Bytes) :=
  let previous_shortstatehash := σ.roomSsh
  let state_hash := calculate_hash (new_state_ids_compressed.sort (· ≤ ·))
  let r := get_or_create_shortstatehash σ state_hash
  let new_shortstatehash := r.1
  let already_existed := r.2.1
  let σ1 := r.2.2
  if some new_shortstatehash = previous_shortstatehash then
    (σ1, some (new_shortstatehash, ∅, ∅))
  else
    let states_parents :=
      match previous_shortstatehash with
      | some p => (load_shortstatehash_info (p + 1) σ1.db p).getD []
      | none => []
    let diffs :=
      match states_parents.getLast? with
      | some parent_stateinfo =>
        (new_state_ids_compressed \ parent_stateinfo.full_state,
         parent_stateinfo.full_state \ new_state_ids_compressed)
      | none => (new_state_ids_compressed, (∅ : Finset Bytes))
    if already_existed then
      (σ1, some (new_shortstatehash, diffs.1, diffs.2))
    else
      match save_state_from_diff σ1.db new_shortstatehash diffs.1 diffs.2 2
          states_parents with
      | (db2, some _) =>
        ({ σ1 with db := db2 }, some (new_shortstatehash, diffs.1, diffs.2))
      | (db2, none) => ({ σ1 with db := db2 }, none)

/-- The initial system: empty column, empty interner table, first fresh
id 1 (short ids are never 0), no room-state entry. -/
def initSys : Sys := ⟨fun _ => none, [], 1, none⟩

/-- A serialized sequence of `save_state` calls on one room, the
room-state index returning the previously returned SSH each time.
Returns the final system and the returned SSHs; `none` if any call
errored. -/
def runSaves (σ : Sys) : List (Finset Bytes) → Option (Sys × List Nat)
  | [] => some (σ, [])
  | S :: rest =>
    match save_state σ S with
    | (σ2, some res) =>
      match runSaves { σ2 with roomSsh := some res.1 } rest with
      | some (σf, sshs) => some (σf, res.1 :: sshs)
      | none => none
    | (_, none) => none

/-- The event-id interner state backing `compress_state_event` and
`parse_compressed_state_event`. Modelled from the spec: the
`rooms::short` service is not under `src/`; spec §6 gives idempotent
`intern_event` never returning 0 and `resolve_event` failing on unknown
ids. -/
structure EventInterner where
  table : List (Bytes × Nat)
  next : Nat

/-- Modelled from the spec: idempotent event-id interning, fresh ids from
a counter that starts at 1. -/
def get_or_create_shorteventid (ι : EventInterner) (event_id : Bytes) :
    Nat × EventInterner :=
  match (ι.table.find? (fun e => e.1 = event_id)) with
  | some e => (e.2, ι)
  | none => (ι.next, { table := (event_id, ι.next) :: ι.table, next := ι.next + 1 })

/-- Modelled from the spec: resolving a short event id, failing
(`UnknownEventShort`) on ids that were never interned. -/
def get_eventid_from_short (ι : EventInterner) (shorteventid : Nat) : Option Bytes :=
  match (ι.table.find? (fun e => e.2 = shorteventid)) with
  | some e => some e.1
  | none => none

/-- `compress_state_event`: the big-endian short-state-key bytes followed
by the big-endian bytes of the interned short event id. -/
def compress_state_event (ι : EventInterner) (shortstatekey : Nat)
    (event_id : Bytes) : Bytes × EventInterner :=
  let r := get_or_create_shorteventid ι event_id
  (natToBytesBE 8 shortstatekey ++ natToBytesBE 8 r.1, r.2)

/-- `parse_compressed_state_event`: split the 16 bytes; the first 8 are
the short-state-key, the trailing short event id is resolved through the
interner. -/
def parse_compressed_state_event (ι : EventInterner) (compressed_event : Bytes) :
    Option (Nat × Bytes) :=
  match get_eventid_from_short ι (bytesToNat (compressed_event.drop 8)) with
  | some event_id => some (bytesToNat (compressed_event.take 8), event_id)
  | none => none

/-! ## Byte-encoding lemmas -/

lemma natToBytesBE_length (w n : Nat) : (natToBytesBE w n).length = w := by
  induction w generalizing n with
  | zero => rfl
  | succ w ih => simp [natToBytesBE, ih]

lemma bytesToNat_append (l : Bytes) (b : Nat) :
    bytesToNat (l ++ [b]) = bytesToNat l * 256 + b := by
  simp [bytesToNat, List.foldl_append]

lemma bytesToNat_natToBytesBE (w n : Nat) :
    bytesToNat (natToBytesBE w n) = n % 256 ^ w := by
  induction w generalizing n with
  | zero => simp [natToBytesBE, bytesToNat, Nat.mod_one]
  | succ w ih =>
    rw [natToBytesBE, bytesToNat_append, ih]
    have h : 256 ^ (w + 1) = 256 * 256 ^ w := by ring
    rw [h, Nat.mod_mul]
    ring

lemma natToBytesBE_eight_zero : natToBytesBE 8 0 = List.replicate 8 0 := by decide

lemma u64Bound_eq : (256 : Nat) ^ 8 = u64Bound := by norm_num [u64Bound]

/-! ## Decode-loop lemmas -/

/-- Inserting a chunk list into an accumulator set. -/
lemma foldl_insert_eq_union (cs : List Bytes) (A : Finset Bytes) :
    cs.foldl (fun s c => insert c s) A = A ∪ cs.toFinset := by
  induction cs generalizing A with
  | nil => simp
  | cons c cs ih =>
    simp only [List.foldl_cons, ih, List.toFinset_cons]
    ext x
    simp [or_comm, or_left_comm]

lemma get_statediff_loop_nil (add_mode : Bool) (A R : Finset Bytes) :
    get_statediff_loop [] add_mode A R = (A, R) := by
  rw [get_statediff_loop]
  simp

/-- In add mode, a prefix of well-formed CSE chunks is consumed into the
`added` accumulator. -/
lemma get_statediff_loop_add (cs : List Bytes) (rest : Bytes) (A R : Finset Bytes)
    (hv : ∀ c ∈ cs, valid16 c) :
    get_statediff_loop (cs.flatten ++ rest) true A R =
      get_statediff_loop rest true (A ∪ cs.toFinset) R := by
  induction cs generalizing A with
  | nil => simp
  | cons c cs ih =>
    obtain ⟨hlen, hnz⟩ := hv c (by simp)
    have hge : ¬((c ++ (cs.flatten ++ rest)).length < 16) := by
      simp [List.length_append, hlen]
    rw [List.flatten_cons, List.append_assoc, get_statediff_loop]
    have htake8 : (c ++ (cs.flatten ++ rest)).take 8 = c.take 8 :=
      List.take_append_of_le_length (by omega)
    have htake16 : (c ++ (cs.flatten ++ rest)).take 16 = c := by
      rw [show (16 : Nat) = c.length from hlen.symm, List.take_left]
    have hdrop16 : (c ++ (cs.flatten ++ rest)).drop 16 = cs.flatten ++ rest := by
      rw [show (16 : Nat) = c.length from hlen.symm, List.drop_left]
    have hcond : ¬((true = true) ∧
        (c ++ (cs.flatten ++ rest)).take 8 = List.replicate 8 0) := by
      rw [htake8]
      simp only [true_and]
      exact hnz
    rw [dif_neg hge, if_neg hcond, if_pos rfl, htake16, hdrop16,
      ih (insert c A) (fun x hx => hv x (by simp [hx]))]
    congr 1
    ext x
    simp [or_comm, or_left_comm]

/-- In remove mode, well-formed CSE chunks are consumed into the `removed`
accumulator (the sentinel test is not performed in remove mode). -/
lemma get_statediff_loop_remove (cs : List Bytes) (A R : Finset Bytes)
    (hv : ∀ c ∈ cs, c.length = 16) :
    get_statediff_loop cs.flatten false A R = (A, R ∪ cs.toFinset) := by
  induction cs generalizing R with
  | nil => simp [get_statediff_loop_nil]
  | cons c cs ih =>
    have hlen := hv c (by simp)
    have hge : ¬((c ++ cs.flatten).length < 16) := by
      simp [List.length_append, hlen]
    rw [List.flatten_cons, get_statediff_loop]
    have htake16 : (c ++ cs.flatten).take 16 = c := by
      rw [show (16 : Nat) = c.length from hlen.symm, List.take_left]
    have hdrop16 : (c ++ cs.flatten).drop 16 = cs.flatten := by
      rw [show (16 : Nat) = c.length from hlen.symm, List.drop_left]
    rw [dif_neg hge, if_neg (by simp), if_neg (by simp)]
    rw [htake16, hdrop16, ih (insert c R) (fun x hx => hv x (by simp [hx]))]
    congr 1
    ext x
    simp [or_comm, or_left_comm]

/-- In add mode, the all-zero sentinel followed by at least one chunk
flips the loop into remove mode. -/
lemma get_statediff_loop_sentinel (cs : List Bytes) (A R : Finset Bytes)
    (hne : cs ≠ []) (hv : ∀ c ∈ cs, c.length = 16) :
    get_statediff_loop (List.replicate 8 0 ++ cs.flatten) true A R =
      get_statediff_loop cs.flatten false A R := by
  obtain ⟨c, cs', rfl⟩ : ∃ c cs', cs = c :: cs' := by
    cases cs with
    | nil => exact absurd rfl hne
    | cons c cs' => exact ⟨c, cs', rfl⟩
  have hlen := hv c (by simp)
  have hge : ¬((List.replicate 8 0 ++ (c :: cs').flatten).length < 16) := by
    simp only [List.length_append, List.length_replicate, List.flatten_cons,
      List.length_flatten, List.map_cons, List.sum_cons, hlen, not_lt]
    omega
  rw [get_statediff_loop, dif_neg hge]
  have h8 : (8 : Nat) ≤ (List.replicate 8 (0 : Nat)).length := by simp
  have htake8 : (List.replicate 8 0 ++ (c :: cs').flatten).take 8 =
      List.replicate 8 (0 : Nat) := by
    rw [List.take_append_of_le_length h8]
    simp
  have hdrop8 : (List.replicate 8 0 ++ (c :: cs').flatten).drop 8 =
      (c :: cs').flatten := by
    rw [List.drop_append_of_le_length h8]
    simp
  rw [if_pos (by simp [htake8]), hdrop8]

/-- Helper: the record body of an encoded diff decodes to the diff's two
sets when every CSE is well-formed. -/
lemma get_statediff_loop_body (d : StateDiff)
    (ha : ∀ c ∈ d.added, valid16 c) (hr : ∀ c ∈ d.removed, valid16 c) :
    get_statediff_loop
      ((d.added.sort (· ≤ ·)).flatten ++
        (if d.removed = ∅ then []
         else natToBytesBE 8 0 ++ (d.removed.sort (· ≤ ·)).flatten)) true ∅ ∅ =
      (d.added, d.removed) := by
  rw [get_statediff_loop_add _ _ _ _ (by intro c hc; exact ha c (Finset.mem_sort _ |>.mp hc))]
  rw [Finset.sort_toFinset, Finset.empty_union]
  by_cases hrem : d.removed = ∅
  · simp [hrem, get_statediff_loop_nil]
  · rw [if_neg hrem, natToBytesBE_eight_zero]
    have hne : d.removed.sort (· ≤ ·) ≠ [] := by
      intro h
      have := Finset.length_sort (α := Bytes) (· ≤ ·) (s := d.removed)
      rw [h] at this
      exact hrem (Finset.card_eq_zero.mp this.symm)
    have hlens : ∀ c ∈ d.removed.sort (· ≤ ·), c.length = 16 := by
      intro c hc
      exact (hr c (Finset.mem_sort _ |>.mp hc)).1
    rw [get_statediff_loop_sentinel _ _ _ hne hlens,
      get_statediff_loop_remove _ _ _ hlens, Finset.sort_toFinset,
      Finset.empty_union]

/-- Codec round-trip: decoding the encoded record of any `StateDiff` whose
CSEs are well-formed 16-byte values with nonzero short-state-key and whose
parent, when present, is a nonzero `u64`, yields the record back. -/
lemma decode_save_statediff_value (d : StateDiff)
    (ha : ∀ c ∈ d.added, valid16 c) (hr : ∀ c ∈ d.removed, valid16 c)
    (hp : ∀ p, d.parent = some p → 1 ≤ p ∧ p < u64Bound) :
    decodeStateDiff (save_statediff_value d) = some d := by
  have hplen : (natToBytesBE 8 (d.parent.getD 0)).length = 8 := natToBytesBE_length _ _
  set body : Bytes := (d.added.sort (· ≤ ·)).flatten ++
      (if d.removed = ∅ then []
       else natToBytesBE 8 0 ++ (d.removed.sort (· ≤ ·)).flatten) with hbody
  have hval : save_statediff_value d = natToBytesBE 8 (d.parent.getD 0) ++ body := by
    rw [save_statediff_value, hbody, List.append_assoc]
  have h8 : (8 : Nat) ≤ (natToBytesBE 8 (d.parent.getD 0)).length := by rw [hplen]
  have hlen : ¬((natToBytesBE 8 (d.parent.getD 0) ++ body).length < 8) := by
    simp [List.length_append, hplen]
  have htk : (natToBytesBE 8 (d.parent.getD 0) ++ body).take 8 =
      natToBytesBE 8 (d.parent.getD 0) := by
    rw [List.take_append_of_le_length h8]
    exact List.take_of_length_le (by rw [hplen])
  have hdr : (natToBytesBE 8 (d.parent.getD 0) ++ body).drop 8 = body := by
    rw [List.drop_append_of_le_length h8, List.drop_eq_nil_of_le (by rw [hplen]),
      List.nil_append]
  have hpval : bytesToNat (natToBytesBE 8 (d.parent.getD 0)) = d.parent.getD 0 := by
    rw [bytesToNat_natToBytesBE]
    apply Nat.mod_eq_of_lt
    rw [u64Bound_eq]
    cases hd : d.parent with
    | none => simp [u64Bound]
    | some p => simpa using (hp p hd).2
  rw [hval, decodeStateDiff, if_neg hlen]
  simp only [htk, hdr, hpval, hbody, get_statediff_loop_body d ha hr]
  have hparent : (if d.parent.getD 0 = 0 then none else some (d.parent.getD 0)) =
      d.parent := by
    cases hd : d.parent with
    | none => simp
    | some p =>
      have h1 := (hp p hd).1
      simp only [Option.getD_some]
      rw [if_neg (by omega)]
  rw [hparent]

/-- Loop on a short remainder: fewer than 16 bytes terminate at once. -/
lemma get_statediff_loop_short (value : Bytes) (add_mode : Bool) (A R : Finset Bytes)
    (h : value.length < 16) : get_statediff_loop value add_mode A R = (A, R) := by
  rw [get_statediff_loop, dif_pos h]

/-- Concrete CSE values used in witnesses and counterexamples. -/
def cseA : Bytes := List.replicate 7 0 ++ [1] ++ List.replicate 8 0

def cseB : Bytes := List.replicate 7 0 ++ [2] ++ List.replicate 8 0

unseal List.merge List.mergeSort get_statediff_loop in
/-- C4 counterexample: a `StateDiff` with `parent = Some(0)` and empty
sets satisfies every hypothesis of the claim (all its CSEs vacuously have
nonzero short-state-keys, `added` and `removed` are disjoint), yet the
record comes back with `parent = None`, because `save_statediff` writes
`parent.unwrap_or(0)` and `get_statediff` reads 0 back as `None`. -/
theorem get_statediff_parent_zero_counterexample :
    get_statediff (save_statediff (fun _ => none) 7 ⟨some 0, ∅, ∅⟩) 7 =
      some ⟨none, ∅, ∅⟩ ∧
    (⟨none, ∅, ∅⟩ : StateDiff) ≠ ⟨some 0, ∅, ∅⟩ := by
  constructor
  · decide
  · decide

/-- C4 (amended): for every `StateDiff` whose `added` and `removed` CSEs
are 16-byte values with a nonzero first-8-byte short-state-key, whose
`added` and `removed` are disjoint, and whose parent is `None` or a
nonzero `u64` (the on-disk 0 is reserved for `None`), decoding the record
written by `save_statediff` yields the diff back exactly: same parent and
equal `added` / `removed` sets. -/
theorem get_statediff_save_statediff_roundtrip (db : DB) (ssh : Nat) (d : StateDiff)
    (ha : ∀ c ∈ d.added, valid16 c) (hr : ∀ c ∈ d.removed, valid16 c)
    (hdisj : d.added ∩ d.removed = ∅)
    (hp : ∀ p, d.parent = some p → 1 ≤ p ∧ p < u64Bound) :
    get_statediff (save_statediff db ssh d) ssh = some d := by
  unfold get_statediff save_statediff
  rw [if_pos rfl]
  exact decode_save_statediff_value d ha hr hp

/-- C4 witness: the round-trip evaluated on a concrete record. -/
theorem get_statediff_save_statediff_roundtrip_witness :
    get_statediff (save_statediff (fun _ => none) 9 ⟨some 3, {cseA}, {cseB}⟩) 9 =
      some ⟨some 3, {cseA}, {cseB}⟩ :=
  get_statediff_save_statediff_roundtrip (fun _ => none) 9 ⟨some 3, {cseA}, {cseB}⟩
    (by decide) (by decide) (by decide)
    (by
      intro p hpe
      injection hpe with h
      subst h
      exact ⟨by norm_num, by norm_num [u64Bound]⟩)

unseal List.merge List.mergeSort get_statediff_loop in
/-- C5 counterexample: a record whose body carries three trailing bytes
that do not form a whole 16-byte CSE decodes successfully to the partial
sets — `get_statediff` silently ignores the odd trailing bytes instead of
returning a `CorruptRecord` error, because the decode loop simply stops
when fewer than 16 bytes remain. -/
theorem get_statediff_trailing_counterexample :
    get_statediff
        (fun k => if k = 5 then some (natToBytesBE 8 0 ++ cseA ++ [1, 2, 3]) else none)
        5 = some ⟨none, {cseA}, ∅⟩ := by
  decide

/-- C5 (amended): trailing bytes after the 8-byte parent prefix that do
not form a whole 16-byte CSE are silently ignored: decoding succeeds with
exactly the CSEs parsed so far (and a record shorter than 8 bytes makes
the source panic on slice indexing rather than return an error, modelled
as `none`). -/
theorem get_statediff_ignores_trailing (p : Nat) (cs : List Bytes) (extra : Bytes)
    (hp : p < u64Bound) (hv : ∀ c ∈ cs, valid16 c) (hextra : extra.length < 16) :
    decodeStateDiff (natToBytesBE 8 p ++ (cs.flatten ++ extra)) =
      some ⟨if p = 0 then none else some p, cs.toFinset, ∅⟩ := by
  have hplen : (natToBytesBE 8 p).length = 8 := natToBytesBE_length _ _
  have h8 : (8 : Nat) ≤ (natToBytesBE 8 p).length := by rw [hplen]
  have hlen : ¬((natToBytesBE 8 p ++ (cs.flatten ++ extra)).length < 8) := by
    simp [List.length_append, hplen]
  rw [decodeStateDiff, if_neg hlen]
  have htk : (natToBytesBE 8 p ++ (cs.flatten ++ extra)).take 8 = natToBytesBE 8 p := by
    rw [List.take_append_of_le_length h8]
    exact List.take_of_length_le (by rw [hplen])
  have hdr : (natToBytesBE 8 p ++ (cs.flatten ++ extra)).drop 8 = cs.flatten ++ extra := by
    rw [List.drop_append_of_le_length h8, List.drop_eq_nil_of_le (by rw [hplen]),
      List.nil_append]
  have hpv : bytesToNat (natToBytesBE 8 p) = p := by
    rw [bytesToNat_natToBytesBE]
    exact Nat.mod_eq_of_lt (by rw [u64Bound_eq]; exact hp)
  simp only [htk, hdr, hpv, get_statediff_loop_add cs extra ∅ ∅ hv,
    get_statediff_loop_short extra true _ _ hextra, Finset.empty_union]

/-- C5 amended witness: the lenient decode evaluated on the concrete
malformed record of the counterexample's shape. -/
theorem get_statediff_ignores_trailing_witness :
    decodeStateDiff (natToBytesBE 8 0 ++ ([cseA].flatten ++ [1, 2, 3])) =
      some ⟨if (0 : Nat) = 0 then none else some 0, [cseA].toFinset, ∅⟩ :=
  get_statediff_ignores_trailing 0 [cseA] [1, 2, 3] (by norm_num [u64Bound])
    (by decide) (by decide)

/-! ## Fold lemmas -/

/-- Closed form of the first fold pass on a duplicate-free iteration
list. -/
lemma fold_removed_pass_eq (rl : List Bytes) (A R : Finset Bytes) (hnd : rl.Nodup) :
    fold_removed_pass A R rl = (A \ rl.toFinset, R ∪ (rl.toFinset \ A)) := by
  induction rl generalizing A R with
  | nil => simp [fold_removed_pass]
  | cons x rl ih =>
    obtain ⟨hx, hnd'⟩ := List.nodup_cons.mp hnd
    rw [fold_removed_pass, List.foldl_cons]
    by_cases hxA : x ∈ A
    · rw [if_pos hxA]
      rw [show List.foldl _ (A.erase x, R) rl = fold_removed_pass (A.erase x) R rl
          from rfl, ih _ _ hnd']
      refine Prod.ext ?_ ?_ <;> ext y <;>
        by_cases hyx : y = x <;>
        simp_all [Finset.mem_erase, List.mem_toFinset]
    · rw [if_neg hxA]
      rw [show List.foldl _ (A, insert x R) rl = fold_removed_pass A (insert x R) rl
          from rfl, ih _ _ hnd']
      refine Prod.ext ?_ ?_ <;> ext y <;>
        by_cases hyx : y = x <;>
        simp_all [List.mem_toFinset] <;> tauto

/-- Closed form of the second fold pass on a duplicate-free iteration
list. -/
lemma fold_added_pass_eq (al : List Bytes) (A R : Finset Bytes) (hnd : al.Nodup) :
    fold_added_pass A R al = (A ∪ (al.toFinset \ R), R \ al.toFinset) := by
  induction al generalizing A R with
  | nil => simp [fold_added_pass]
  | cons x al ih =>
    obtain ⟨hx, hnd'⟩ := List.nodup_cons.mp hnd
    rw [fold_added_pass, List.foldl_cons]
    by_cases hxR : x ∈ R
    · rw [if_pos hxR]
      rw [show List.foldl _ (A, R.erase x) al = fold_added_pass A (R.erase x) al
          from rfl, ih _ _ hnd']
      refine Prod.ext ?_ ?_ <;> ext y <;>
        by_cases hyx : y = x <;>
        simp_all [Finset.mem_erase, List.mem_toFinset] <;> tauto
    · rw [if_neg hxR]
      rw [show List.foldl _ (insert x A, R) al = fold_added_pass (insert x A) R al
          from rfl, ih _ _ hnd']
      refine Prod.ext ?_ ?_ <;> ext y <;>
        by_cases hyx : y = x <;>
        simp_all [List.mem_toFinset] <;> tauto

/-- Closed form of the complete fold. -/
lemma foldDiff_eq (A R a r : Finset Bytes) :
    foldDiff A R a r =
      ((A \ r) ∪ (a \ (R ∪ (r \ A))), (R ∪ (r \ A)) \ a) := by
  rw [foldDiff, fold_removed_pass_eq _ _ _ (Finset.sort_nodup _ _),
    Finset.sort_toFinset, fold_added_pass_eq _ _ _ (Finset.sort_nodup _ _),
    Finset.sort_toFinset]

/-- With `a ∩ r = ∅` the fold computes exactly the spec's `⊕` operator. -/
lemma foldDiff_eq_of_disj (A R a r : Finset Bytes) (har : a ∩ r = ∅) :
    foldDiff A R a r = ((A \ r) ∪ (a \ R), (R \ a) ∪ (r \ A)) := by
  rw [foldDiff_eq]
  have hd : ∀ x, x ∈ a → x ∉ r := fun x hxa hxr =>
    Finset.not_mem_empty x (har ▸ Finset.mem_inter_of_mem hxa hxr)
  refine Prod.ext ?_ ?_ <;> ext y <;>
    have hdy := hd y <;>
    simp only [Finset.mem_union, Finset.mem_sdiff, not_or, not_and, not_not] <;>
    tauto

/-- The folded diff stays disjoint when both inputs are disjoint. -/
lemma foldDiff_disjoint (A R a r : Finset Bytes)
    (hAR : A ∩ R = ∅) (har : a ∩ r = ∅) :
    ((A \ r) ∪ (a \ R)) ∩ ((R \ a) ∪ (r \ A)) = ∅ := by
  have h1 : ∀ x, x ∈ A → x ∉ R := fun x h1 h2 =>
    Finset.not_mem_empty x (hAR ▸ Finset.mem_inter_of_mem h1 h2)
  have h2 : ∀ x, x ∈ a → x ∉ r := fun x h3 h4 =>
    Finset.not_mem_empty x (har ▸ Finset.mem_inter_of_mem h3 h4)
  ext y
  have h1y := h1 y
  have h2y := h2 y
  simp only [Finset.mem_inter, Finset.mem_union, Finset.mem_sdiff,
    Finset.not_mem_empty, iff_false]
  tauto

/-- Applying the folded diff to a base equals applying the two diffs in
sequence, provided the outer diff is a genuine diff against the base
(`R ⊆ B`, `A ∩ B = ∅`) and the inner diff is internally disjoint. -/
lemma foldDiff_apply (A R a r B : Finset Bytes) (har : a ∩ r = ∅)
    (hRB : R ⊆ B) (hAB : A ∩ B = ∅) :
    (B ∪ (foldDiff A R a r).1) \ (foldDiff A R a r).2 =
      (((B ∪ A) \ R) ∪ a) \ r := by
  rw [foldDiff_eq_of_disj A R a r har]
  have h2 : ∀ x, x ∈ a → x ∉ r := fun x h3 h4 =>
    Finset.not_mem_empty x (har ▸ Finset.mem_inter_of_mem h3 h4)
  have h3 : ∀ x, x ∈ A → x ∉ B := fun x h5 h6 =>
    Finset.not_mem_empty x (hAB ▸ Finset.mem_inter_of_mem h5 h6)
  ext y
  have h2y := h2 y
  have h3y := h3 y
  have h4y : y ∈ R → y ∈ B := fun h7 => hRB h7
  simp only [Finset.mem_union, Finset.mem_sdiff, not_or, not_and, not_not]
  tauto

unseal List.merge List.mergeSort in
/-- C7 counterexample: with `A = ∅`, `R = {cseA}`, `a = {cseA}`, `r = ∅`
(which satisfy `A ∩ R = ∅` and `a ∩ r = ∅`) and base `B = ∅`, applying
the folded diff to `B` yields `∅`, while applying `(A, R)` then `(a, r)`
sequentially yields `{cseA}`: the re-addition of an element removed by
the parent layer cancels in the fold, so the claim's equality for *every*
base set fails on bases that do not contain the element. -/
theorem foldDiff_apply_counterexample :
    ((∅ : Finset Bytes) ∩ {cseA} = ∅ ∧ ({cseA} : Finset Bytes) ∩ ∅ = ∅) ∧
    (∅ ∪ (foldDiff ∅ {cseA} {cseA} ∅).1) \ (foldDiff ∅ {cseA} {cseA} ∅).2 ≠
      ((((∅ ∪ ∅) \ {cseA}) ∪ {cseA}) \ ∅ : Finset Bytes) := by
  constructor
  · constructor
    · decide
    · decide
  · decide

/-- C7 (amended): for `A ∩ R = ∅` and `a ∩ r = ∅`, the two-pass fold of
`save_state_from_diff` computes exactly `A′ = (A \ r) ∪ (a \ R)`,
`R′ = (R \ a) ∪ (r \ A)`; the result is disjoint; and applying the folded
diff to a base `B` equals applying the two diffs sequentially for every
base `B` such that `(A, R)` is a genuine diff against `B`, i.e. `R ⊆ B`
and `A ∩ B = ∅` (without these two conditions the equality fails, as the
counterexample shows). -/
theorem foldDiff_correct (A R a r : Finset Bytes)
    (hAR : A ∩ R = ∅) (har : a ∩ r = ∅) :
    foldDiff A R a r = ((A \ r) ∪ (a \ R), (R \ a) ∪ (r \ A)) ∧
    (foldDiff A R a r).1 ∩ (foldDiff A R a r).2 = ∅ ∧
    ∀ B, R ⊆ B → A ∩ B = ∅ →
      (B ∪ (foldDiff A R a r).1) \ (foldDiff A R a r).2 =
        (((B ∪ A) \ R) ∪ a) \ r := by
  refine ⟨foldDiff_eq_of_disj A R a r har, ?_, ?_⟩
  · rw [foldDiff_eq_of_disj A R a r har]
    exact foldDiff_disjoint A R a r hAR har
  · intro B hRB hAB
    exact foldDiff_apply A R a r B har hRB hAB

/-- C7 witness: the amended fold correctness applied at a concrete
input. -/
theorem foldDiff_correct_witness :
    foldDiff {cseA} {cseB} ∅ {cseA} =
      (({cseA} \ {cseA}) ∪ (∅ \ {cseB}), ({cseB} \ ∅) ∪ ({cseA} \ {cseA})) ∧
    (foldDiff {cseA} {cseB} ∅ {cseA}).1 ∩ (foldDiff {cseA} {cseB} ∅ {cseA}).2 = ∅ ∧
    ∀ B, {cseB} ⊆ B → {cseA} ∩ B = ∅ →
      (B ∪ (foldDiff {cseA} {cseB} ∅ {cseA}).1) \
          (foldDiff {cseA} {cseB} ∅ {cseA}).2 =
        (((B ∪ {cseA}) \ {cseB}) ∪ ∅) \ {cseA} :=
  foldDiff_correct {cseA} {cseB} ∅ {cseA} (by decide) (by decide)

/-- C6: with a non-empty parent stack of at most 3 layers and no
arithmetic overflow, `save_state_from_diff` folds into the popped tip and
recurses with `diff_to_sibling = D` exactly when
`D² ≥ 2·diff_to_sibling·P_cost`, and otherwise persists
`StateDiff { parent: Some(tip.ssh), added, removed }`. -/
theorem save_state_from_diff_heuristic (db : DB) (ssh : Nat)
    (a r : Finset Bytes) (s : Nat) (stack : List ShortStateInfo)
    (tip : ShortStateInfo)
    (hne : stack.getLast? = some tip) (hlen : stack.length ≤ 3)
    (hD : a.card + r.card < u64Bound)
    (hD2 : (a.card + r.card) * (a.card + r.card) < u64Bound)
    (hP : tip.added.card + tip.removed.card < u64Bound)
    (h2S : 2 * s < u64Bound)
    (h2SP : 2 * s * (tip.added.card + tip.removed.card) < u64Bound) :
    save_state_from_diff db ssh a r s stack =
      if (a.card + r.card) * (a.card + r.card) ≥
          2 * s * (tip.added.card + tip.removed.card) then
        save_state_from_diff db ssh (foldDiff tip.added tip.removed a r).1
          (foldDiff tip.added tip.removed a r).2 (a.card + r.card) stack.dropLast
      else
        (save_statediff db ssh ⟨some tip.shortstatehash, a, r⟩, some ()) := by
  have hnonempty : stack ≠ [] := by
    intro hnil
    rw [hnil] at hne
    simp at hne
  rw [save_state_from_diff, checkedAdd, if_pos hD]
  simp only [gt_iff_lt, not_lt.mpr hlen, if_neg (by omega : ¬(3 < stack.length)),
    if_neg (by simp [List.isEmpty_iff, hnonempty] : ¬(stack.isEmpty = true)), hne]
  rw [checkedAdd, if_pos hP, checkedMul, if_pos hD2, checkedMul, if_pos h2S]
  simp only [Option.some_bind]
  rw [checkedMul, if_pos h2SP]
  simp

/-- C6 witness: the heuristic evaluated on a concrete stack of one
layer. -/
theorem save_state_from_diff_heuristic_witness :
    save_state_from_diff (fun _ => none) 5 {cseB} ∅ 2 [⟨1, {cseA}, {cseA}, ∅⟩] =
      if ({cseB} : Finset Bytes).card * ({cseB} : Finset Bytes).card ≥
          2 * 2 * (({cseA} : Finset Bytes).card + (∅ : Finset Bytes).card) then
        save_state_from_diff (fun _ => none) 5 (foldDiff {cseA} ∅ {cseB} ∅).1
          (foldDiff {cseA} ∅ {cseB} ∅).2 ({cseB} : Finset Bytes).card []
      else
        (save_statediff (fun _ => none) 5 ⟨some 1, {cseB}, ∅⟩, some ()) := by
  have h := save_state_from_diff_heuristic (fun _ => none) 5 {cseB} ∅ 2
    [⟨1, {cseA}, {cseA}, ∅⟩] ⟨1, {cseA}, {cseA}, ∅⟩ (by decide) (by decide)
    (by decide) (by decide) (by decide) (by decide) (by decide)
  simpa using h

/-- A set with `2^64` elements, witnessing arithmetic overflow. -/
def hugeSet : Finset Bytes := (Finset.range u64Bound).image (fun n => [n])

lemma hugeSet_card : hugeSet.card = u64Bound := by
  rw [hugeSet, Finset.card_image_of_injective _ (fun x y h => by
    simpa using h), Finset.card_range]

/-- C8: if computing `D = |added| + |removed|`, `D²`, or
`2·diff_to_sibling·P_cost` overflows the `usize` bound, the checked
arithmetic makes `save_state_from_diff` return the `ArithmeticOverflow`
error (`none`) to its caller with the store unchanged — overflow is never
silently treated as a fold, and no diff record is written. -/
theorem save_state_from_diff_overflow (db : DB) (ssh : Nat)
    (a r : Finset Bytes) (s : Nat) (stack : List ShortStateInfo)
    (tip : ShortStateInfo)
    (h : u64Bound ≤ a.card + r.card ∨
      (stack.getLast? = some tip ∧ stack.length ≤ 3 ∧
        (u64Bound ≤ (a.card + r.card) * (a.card + r.card) ∨
         u64Bound ≤ 2 * s * (tip.added.card + tip.removed.card)))) :
    save_state_from_diff db ssh a r s stack = (db, none) := by
  by_cases hD : a.card + r.card < u64Bound
  · rcases h with h | ⟨hne, hlen, hover⟩
    · omega
    · have hnonempty : stack ≠ [] := by
        intro hnil
        rw [hnil] at hne
        simp at hne
      rw [save_state_from_diff, checkedAdd, if_pos hD]
      simp only [gt_iff_lt, if_neg (by omega : ¬(3 < stack.length)),
        if_neg (by simp [List.isEmpty_iff, hnonempty] : ¬(stack.isEmpty = true)), hne]
      by_cases hP : tip.added.card + tip.removed.card < u64Bound
      · rw [checkedAdd, if_pos hP]
        by_cases hD2 : (a.card + r.card) * (a.card + r.card) < u64Bound
        · have h2SP : u64Bound ≤ 2 * s * (tip.added.card + tip.removed.card) := by
            rcases hover with hover | hover
            · omega
            · exact hover
          rw [checkedMul, if_pos hD2]
          by_cases h2S : 2 * s < u64Bound
          · rw [checkedMul, if_pos h2S]
            simp only [Option.some_bind]
            rw [checkedMul, if_neg (by omega)]
          · rw [checkedMul, if_neg h2S]
            simp only [Option.none_bind]
        · rw [checkedMul, if_neg hD2]
      · rw [checkedAdd, if_neg hP]
  · rw [save_state_from_diff, checkedAdd, if_neg hD]

/-- C8 witness: a diff whose `added` set alone has `2^64` elements makes
the very first checked addition overflow; no record is written. -/
theorem save_state_from_diff_overflow_witness :
    save_state_from_diff (fun _ => none) 1 hugeSet ∅ 2 [] =
      ((fun _ => none : DB), none) :=
  save_state_from_diff_overflow (fun _ => none) 1 hugeSet ∅ 2 [] ⟨0, ∅, ∅, ∅⟩
    (Or.inl (by rw [hugeSet_card]; simp))

/-! ## System-level invariants: well-formed stores and stacks -/

/-- The materialized full state at a short-state-hash: the full state of
the last entry of the loaded stack (fuel `ssh + 1` always suffices because
parent keys strictly decrease in well-formed stores). -/
def mat (db : DB) (ssh : Nat) : Option (Finset Bytes) :=
  (load_shortstatehash_info (ssh + 1) db ssh).bind
    (fun st => st.getLast?.map (fun e => e.full_state))

/-- The full state of the first entry of a tip-first (reversed) stack;
`∅` for the empty stack. -/
def headFull : List ShortStateInfo → Finset Bytes
  | [] => ∅
  | e :: _ => e.full_state

/-- The full state of the tip of a root-first stack. -/
def fullTip (stack : List ShortStateInfo) : Finset Bytes := headFull stack.reverse

/-- A well-formed record of the store: well-formed CSEs, and either a
base layer with empty `removed`, or a parent that is an older key whose
materialized state the diff is genuine against. -/
def GoodRecord (db : DB) (k : Nat) (d : StateDiff) : Prop :=
  (∀ c ∈ d.added, valid16 c) ∧ (∀ c ∈ d.removed, valid16 c) ∧
  (d.parent = none → d.removed = ∅) ∧
  ∀ p, d.parent = some p → 1 ≤ p ∧ p < k ∧ ∃ T, mat db p = some T ∧
    d.added ∩ T = ∅ ∧ d.removed ⊆ T

/-- A well-formed store with all keys below `bound`: every record
decodes, is well-formed, and chains to strictly older parents. -/
def GoodDB (db : DB) (bound : Nat) : Prop :=
  ∀ k v, db k = some v → 1 ≤ k ∧ k < bound ∧
    ∃ d, decodeStateDiff v = some d ∧ GoodRecord db k d

/-- Coherence of a tip-first (reversed) stack: each entry loads to its own
prefix, carries a genuine diff over the full state below it, and the keys
strictly decrease towards the root. -/
def ChainR (db : DB) : List ShortStateInfo → Prop
  | [] => True
  | e :: rest =>
    ChainR db rest ∧
    load_shortstatehash_info (e.shortstatehash + 1) db e.shortstatehash =
      some ((e :: rest).reverse) ∧
    e.added ∩ headFull rest = ∅ ∧
    e.removed ⊆ headFull rest ∧
    e.full_state = (headFull rest ∪ e.added) \ e.removed ∧
    1 ≤ e.shortstatehash ∧
    (∀ x ∈ rest, x.shortstatehash < e.shortstatehash) ∧
    (∀ c ∈ e.full_state, valid16 c)

/-! ## Loader lemmas -/

lemma load_unfold_root (db : DB) (k fuel : Nat) (d : StateDiff)
    (hget : get_statediff db k = some d) (hpar : d.parent = none) :
    load_shortstatehash_info (fuel + 1) db k =
      some [⟨k, d.added, d.added, d.removed⟩] := by
  simp only [load_shortstatehash_info, hget, hpar]

lemma load_unfold_step (db : DB) (k fuel : Nat) (d : StateDiff) (p : Nat)
    (hget : get_statediff db k = some d) (hpar : d.parent = some p)
    (st : List ShortStateInfo) (last : ShortStateInfo)
    (hload : load_shortstatehash_info fuel db p = some st)
    (hlast : st.getLast? = some last) :
    load_shortstatehash_info (fuel + 1) db k =
      some (st ++
        [⟨k, (last.full_state ∪ d.added) \ d.removed, d.added, d.removed⟩]) := by
  simp only [load_shortstatehash_info, hget, hpar, hload, hlast]

/-- Loading is monotone in the fuel. -/
lemma load_mono (fuel : Nat) : ∀ fuel2 db k st,
    load_shortstatehash_info fuel db k = some st → fuel ≤ fuel2 →
    load_shortstatehash_info fuel2 db k = some st := by
  induction fuel with
  | zero => intro fuel2 db k st h; simp [load_shortstatehash_info] at h
  | succ fuel ih =>
    intro fuel2 db k st h hle
    obtain ⟨fuel2, rfl⟩ : ∃ f2, fuel2 = f2 + 1 := ⟨fuel2 - 1, by omega⟩
    rw [load_shortstatehash_info] at h ⊢
    cases hget : get_statediff db k with
    | none =>
      rw [hget] at h
      simp at h
    | some d =>
      rw [hget] at h
      dsimp only at h ⊢
      cases hpar : d.parent with
      | none =>
        rw [hpar] at h
        dsimp only at h ⊢
        exact h
      | some p =>
        rw [hpar] at h
        dsimp only at h ⊢
        cases hload : load_shortstatehash_info fuel db p with
        | none =>
          rw [hload] at h
          simp at h
        | some resp =>
          rw [hload] at h
          rw [ih fuel2 db p resp hload (by omega)]
          dsimp only at h ⊢
          exact h

/-- Loading only inspects keys reachable through parents, which a
well-formed store keeps strictly below the starting key, so agreement of
two stores below a bound transfers loads. -/
lemma load_frame (db db2 : DB) (B : Nat)
    (hagree : ∀ k, k < B → db2 k = db k) (hg : GoodDB db B) :
    ∀ fuel k, k < B →
      load_shortstatehash_info fuel db2 k = load_shortstatehash_info fuel db k := by
  intro fuel
  induction fuel with
  | zero => intro k _; simp [load_shortstatehash_info]
  | succ fuel ih =>
    intro k hk
    have hget : get_statediff db2 k = get_statediff db k := by
      rw [get_statediff, get_statediff, hagree k hk]
    rw [load_shortstatehash_info, load_shortstatehash_info, hget]
    cases hgk : get_statediff db k with
    | none => rfl
    | some d =>
      dsimp only
      cases hpar : d.parent with
      | none => rfl
      | some p =>
        dsimp only
        have hpk : p < k := by
          obtain ⟨v, hv, hdec⟩ : ∃ v, db k = some v ∧ decodeStateDiff v = some d := by
            rw [get_statediff] at hgk
            cases hdb : db k with
            | none => rw [hdb] at hgk; exact absurd hgk (by simp)
            | some v => rw [hdb] at hgk; exact ⟨v, rfl, hgk⟩
          obtain ⟨_, _, d', hd', hrec⟩ := hg k v hv
          rw [hdec] at hd'
          obtain rfl : d = d' := by injection hd'
          exact (hrec.2.2.2 p hpar).2.1
        rw [ih p (by omega)]

lemma mat_frame (db db2 : DB) (B : Nat)
    (hagree : ∀ k, k < B → db2 k = db k) (hg : GoodDB db B) (k : Nat) (hk : k < B) :
    mat db2 k = mat db k := by
  rw [mat, mat, load_frame db db2 B hagree hg _ k hk]

/-- Coherent stacks transfer along agreement below the bound. -/
lemma ChainR_frame (db db2 : DB) (B : Nat)
    (hagree : ∀ k, k < B → db2 k = db k) (hg : GoodDB db B) :
    ∀ l, ChainR db l → (∀ e ∈ l, e.shortstatehash < B) → ChainR db2 l := by
  intro l
  induction l with
  | nil => intro _ _; trivial
  | cons e rest ih =>
    intro hc hb
    obtain ⟨hc1, hc2, hc3, hc4, hc5, hc6, hc7, hc8⟩ := hc
    exact ⟨ih hc1 (fun x hx => hb x (by simp [hx])),
      by rw [load_frame db db2 B hagree hg _ _ (hb e (by simp))]; exact hc2,
      hc3, hc4, hc5, hc6, hc7, hc8⟩

lemma ChainR_headFull_valid (db : DB) (l : List ShortStateInfo) (hc : ChainR db l) :
    ∀ c ∈ headFull l, valid16 c := by
  cases l with
  | nil => simp [headFull]
  | cons e rest => exact hc.2.2.2.2.2.2.2

lemma ChainR_added_sub_full (db : DB) (e : ShortStateInfo) (rest : List ShortStateInfo)
    (hc : ChainR db (e :: rest)) : e.added ⊆ e.full_state := by
  obtain ⟨-, -, hdisj, hsub, hfull, -, -, -⟩ := hc
  intro x hx
  rw [hfull]
  refine Finset.mem_sdiff.mpr ⟨Finset.mem_union_right _ hx, fun hxr => ?_⟩
  exact Finset.not_mem_empty x (hdisj ▸ Finset.mem_inter_of_mem hx (hsub hxr))

lemma ChainR_added_valid (db : DB) (e : ShortStateInfo) (rest : List ShortStateInfo)
    (hc : ChainR db (e :: rest)) : ∀ c ∈ e.added, valid16 c :=
  fun c hc' => hc.2.2.2.2.2.2.2 c (ChainR_added_sub_full db e rest hc hc')

lemma ChainR_removed_valid (db : DB) (e : ShortStateInfo) (rest : List ShortStateInfo)
    (hc : ChainR db (e :: rest)) : ∀ c ∈ e.removed, valid16 c :=
  fun c hc' => ChainR_headFull_valid db rest hc.1 c (hc.2.2.2.1 hc')

/-- A successful load implies the record is present. -/
lemma load_some_db (db : DB) (fuel k : Nat) (st : List ShortStateInfo)
    (h : load_shortstatehash_info (fuel + 1) db k = some st) : ∃ v, db k = some v := by
  rw [load_shortstatehash_info] at h
  cases hdb : db k with
  | none =>
    rw [show get_statediff db k = none by rw [get_statediff, hdb]; rfl] at h
    simp at h
  | some v => exact ⟨v, rfl⟩

/-- Every record of a well-formed store loads (with fuel `k + 1`) to a
coherent stack whose tip is the record's key. -/
lemma goodDB_load (db : DB) (B : Nat) (hg : GoodDB db B) :
    ∀ k v, db k = some v → ∃ e rest,
      load_shortstatehash_info (k + 1) db k = some ((e :: rest).reverse) ∧
      ChainR db (e :: rest) ∧ e.shortstatehash = k := by
  intro k
  induction k using Nat.strong_induction_on with
  | _ k ih =>
    intro v hv
    obtain ⟨hk1, hkB, d, hdec, hrec⟩ := hg k v hv
    have hget : get_statediff db k = some d := by
      rw [get_statediff, hv]
      exact hdec
    obtain ⟨hav, hrv, hroot, hparent⟩ := hrec
    cases hpar : d.parent with
    | none =>
      have hrem : d.removed = ∅ := hroot hpar
      have hload : load_shortstatehash_info (k + 1) db k =
          some [⟨k, d.added, d.added, d.removed⟩] :=
        load_unfold_root db k k d hget hpar
      refine ⟨⟨k, d.added, d.added, d.removed⟩, [], by simpa using hload, ?_, rfl⟩
      refine ⟨trivial, by simpa using hload, by simp [headFull], ?_, ?_, hk1,
        by simp, ?_⟩
      · simp [headFull, hrem]
      · simp [headFull, hrem]
      · simpa using hav
    | some p =>
      obtain ⟨hp1, hpk, T, hmatT, hdisjT, hsubT⟩ := hparent p hpar
      obtain ⟨stp, hloadp, hTlast⟩ :
          ∃ stp, load_shortstatehash_info (p + 1) db p = some stp ∧
            stp.getLast?.map (fun e => e.full_state) = some T := by
        rw [mat] at hmatT
        cases hlp : load_shortstatehash_info (p + 1) db p with
        | none => rw [hlp] at hmatT; simp at hmatT
        | some stp => rw [hlp] at hmatT; exact ⟨stp, rfl, hmatT⟩
      obtain ⟨v', hv'⟩ := load_some_db db p p stp hloadp
      obtain ⟨e', rest', hload', hchain', hssh'⟩ := ih p hpk v' hv'
      obtain rfl : stp = (e' :: rest').reverse := by
        rw [hloadp] at hload'
        injection hload'
      have hTe : T = e'.full_state := by
        rw [List.getLast?_reverse] at hTlast
        simp only [List.head?_cons, Option.map_some', Option.some.injEq] at hTlast
        exact hTlast.symm
      have hlaste : ((e' :: rest').reverse).getLast? = some e' := by
        rw [List.getLast?_reverse]
        rfl
      have hloadk : load_shortstatehash_info (k + 1) db k =
          some ((e' :: rest').reverse ++
            [⟨k, (e'.full_state ∪ d.added) \ d.removed, d.added, d.removed⟩]) :=
        load_unfold_step db k k d p hget hpar ((e' :: rest').reverse) e'
          (load_mono (p + 1) k db p _ hloadp (by omega)) hlaste
      have hloadk' : load_shortstatehash_info (k + 1) db k =
          some ((⟨k, (e'.full_state ∪ d.added) \ d.removed, d.added, d.removed⟩ ::
            e' :: rest').reverse) := by
        rw [List.reverse_cons]
        exact hloadk
      refine ⟨⟨k, (e'.full_state ∪ d.added) \ d.removed, d.added, d.removed⟩,
        e' :: rest', hloadk', ?_, rfl⟩
      refine ⟨hchain', hloadk', ?_, ?_, rfl, hk1, ?_, ?_⟩
      · show d.added ∩ e'.full_state = ∅
        rw [← hTe]
        exact hdisjT
      · show d.removed ⊆ e'.full_state
        rw [← hTe]
        exact hsubT
      · intro x hx
        show x.shortstatehash < k
        rcases List.mem_cons.mp hx with rfl | hx'
        · omega
        · have := hchain'.2.2.2.2.2.2.1 x hx'
          omega
      · intro c hcmem
        have hcmem' : c ∈ (e'.full_state ∪ d.added) \ d.removed := hcmem
        rcases Finset.mem_union.mp (Finset.mem_sdiff.mp hcmem').1 with hcf | hca
        · exact hchain'.2.2.2.2.2.2.2 c hcf
        · exact hav c hca

/-- Applying the exact diff of `S` against `T` to `T` recovers `S`. -/
lemma diff_apply_self (T S : Finset Bytes) : (T ∪ (S \ T)) \ (T \ S) = S := by
  ext y
  simp only [Finset.mem_union, Finset.mem_sdiff, not_and, not_not]
  tauto

/-- The two folded components stay inside the unions of the inputs. -/
lemma foldDiff_subsets (A R a r : Finset Bytes) (har : a ∩ r = ∅) :
    (foldDiff A R a r).1 ⊆ A ∪ a ∧ (foldDiff A R a r).2 ⊆ R ∪ r := by
  rw [foldDiff_eq_of_disj A R a r har]
  constructor <;> intro y hy <;>
    simp only [Finset.mem_union, Finset.mem_sdiff] at * <;> tauto

/-- Folding a genuine diff into a genuine parent layer produces a genuine
diff against the grandparent state that applies to the same target. -/
lemma foldDiff_genuine (A R a r G : Finset Bytes)
    (hAG : A ∩ G = ∅) (hRG : R ⊆ G)
    (hdisj : a ∩ ((G ∪ A) \ R) = ∅) (hsub : r ⊆ (G ∪ A) \ R) :
    (foldDiff A R a r).1 ∩ G = ∅ ∧ (foldDiff A R a r).2 ⊆ G ∧
    (G ∪ (foldDiff A R a r).1) \ (foldDiff A R a r).2 = (((G ∪ A) \ R) ∪ a) \ r := by
  have har : a ∩ r = ∅ := by
    ext x
    simp only [Finset.mem_inter, Finset.not_mem_empty, iff_false, not_and]
    intro hxa hxr
    exact Finset.not_mem_empty x
      (hdisj ▸ Finset.mem_inter_of_mem hxa (hsub hxr))
  refine ⟨?_, ?_, foldDiff_apply A R a r G har hRG hAG⟩
  · rw [foldDiff_eq_of_disj A R a r har]
    ext x
    have h1 : x ∈ A → x ∉ G := fun h1 h2 =>
      Finset.not_mem_empty x (hAG ▸ Finset.mem_inter_of_mem h1 h2)
    have h2 : x ∈ a → ¬((x ∈ G ∨ x ∈ A) ∧ x ∉ R) := fun h3 h4 =>
      Finset.not_mem_empty x
        (hdisj ▸ Finset.mem_inter_of_mem h3
          (Finset.mem_sdiff.mpr ⟨Finset.mem_union.mpr h4.1, h4.2⟩))
    have h3 : x ∈ R → x ∈ G := fun h5 => hRG h5
    simp only [Finset.mem_inter, Finset.mem_union, Finset.mem_sdiff,
      Finset.not_mem_empty, iff_false, not_and]
    tauto
  · rw [foldDiff_eq_of_disj A R a r har]
    intro x hx
    have h3 : x ∈ R → x ∈ G := fun h5 => hRG h5
    have h4 : x ∈ r → (x ∈ G ∨ x ∈ A) ∧ x ∉ R := fun h6 => by
      have := hsub h6
      rw [Finset.mem_sdiff, Finset.mem_union] at this
      exact this
    simp only [Finset.mem_union, Finset.mem_sdiff] at hx
    rcases hx with hx | hx
    · exact h3 hx.1
    · rcases h4 hx.1 with ⟨hG | hA, -⟩
      · exact hG
      · exact absurd hA hx.2

/-- `Vec::pop` on the root-first stack reverses to dropping the head of
the tip-first stack. -/
lemma dropLast_reverse_eq (stack : List ShortStateInfo) (e : ShortStateInfo)
    (rest : List ShortStateInfo) (hrev : stack.reverse = e :: rest) :
    stack.dropLast.reverse = rest := by
  have := List.tail_reverse stack
  rw [hrev] at this
  exact this.symm

lemma fullTip_of_reverse (stack : List ShortStateInfo) (e : ShortStateInfo)
    (rest : List ShortStateInfo) (hrev : stack.reverse = e :: rest) :
    fullTip stack = e.full_state := by
  rw [fullTip, hrev]
  rfl

lemma getLast?_of_reverse (stack : List ShortStateInfo) (e : ShortStateInfo)
    (rest : List ShortStateInfo) (hrev : stack.reverse = e :: rest) :
    stack.getLast? = some e := by
  have h := List.getLast?_reverse stack.reverse
  rw [List.reverse_reverse, hrev] at h
  rw [h]
  rfl

/-- The hypotheses of the layer-engine induction transported through one
fold step. -/
lemma fold_step_hyps (db : DB) (stack : List ShortStateInfo) (e : ShortStateInfo)
    (rest : List ShortStateInfo) (hrev : stack.reverse = e :: rest)
    (a r : Finset Bytes)
    (hchain : ChainR db (e :: rest))
    (hav : ∀ c ∈ a, valid16 c) (hrv : ∀ c ∈ r, valid16 c)
    (hdisj : a ∩ fullTip stack = ∅) (hsub : r ⊆ fullTip stack) :
    (∀ c ∈ (foldDiff e.added e.removed a r).1, valid16 c) ∧
    (∀ c ∈ (foldDiff e.added e.removed a r).2, valid16 c) ∧
    (foldDiff e.added e.removed a r).1 ∩ fullTip stack.dropLast = ∅ ∧
    (foldDiff e.added e.removed a r).2 ⊆ fullTip stack.dropLast ∧
    (fullTip stack.dropLast ∪ (foldDiff e.added e.removed a r).1) \
        (foldDiff e.added e.removed a r).2 = (fullTip stack ∪ a) \ r ∧
    stack.dropLast.reverse = rest ∧ ChainR db stack.dropLast.reverse := by
  have hdrop := dropLast_reverse_eq stack e rest hrev
  have hT := fullTip_of_reverse stack e rest hrev
  have hG : fullTip stack.dropLast = headFull rest := by rw [fullTip, hdrop]
  obtain ⟨hcr, hloade, hAG, hRG, hfull, h1e, horde, hvalide⟩ := hchain
  have hdisj' : a ∩ ((headFull rest ∪ e.added) \ e.removed) = ∅ := by
    rw [← hfull, ← hT]
    exact hdisj
  have hsub' : r ⊆ (headFull rest ∪ e.added) \ e.removed := by
    rw [← hfull, ← hT]
    exact hsub
  have har : a ∩ r = ∅ := by
    ext x
    simp only [Finset.mem_inter, Finset.not_mem_empty, iff_false, not_and]
    intro hxa hxr
    exact Finset.not_mem_empty x
      (hdisj' ▸ Finset.mem_inter_of_mem hxa (hsub' hxr))
  obtain ⟨hgen1, hgen2, hgen3⟩ :=
    foldDiff_genuine e.added e.removed a r (headFull rest) hAG hRG hdisj' hsub'
  obtain ⟨hsub1, hsub2⟩ := foldDiff_subsets e.added e.removed a r har
  refine ⟨?_, ?_, by rw [hG]; exact hgen1, by rw [hG]; exact hgen2, ?_, hdrop,
    by rw [hdrop]; exact hcr⟩
  · intro c hc
    rcases Finset.mem_union.mp (hsub1 hc) with h | h
    · exact ChainR_added_valid db e rest
        ⟨hcr, hloade, hAG, hRG, hfull, h1e, horde, hvalide⟩ c h
    · exact hav c h
  · intro c hc
    rcases Finset.mem_union.mp (hsub2 hc) with h | h
    · exact ChainR_removed_valid db e rest
        ⟨hcr, hloade, hAG, hRG, hfull, h1e, horde, hvalide⟩ c h
    · exact hrv c h
  · rw [hG, hgen3, ← hfull, ← hT]

/-- Writing a fresh record preserves store well-formedness. -/
lemma goodDB_extend (db : DB) (B ssh : Nat) (d : StateDiff)
    (hg : GoodDB db B) (hfresh : B ≤ ssh) (h1 : 1 ≤ ssh)
    (hdec : decodeStateDiff (save_statediff_value d) = some d)
    (hd : GoodRecord (save_statediff db ssh d) ssh d) :
    GoodDB (save_statediff db ssh d) (ssh + 1) := by
  have hagree : ∀ k, k < B → save_statediff db ssh d k = db k := by
    intro k hk
    rw [save_statediff, if_neg (by omega)]
  intro k v hkv
  by_cases hks : k = ssh
  · subst hks
    rw [save_statediff, if_pos rfl] at hkv
    obtain rfl : save_statediff_value d = v := by injection hkv
    exact ⟨h1, by omega, d, hdec, hd⟩
  · rw [save_statediff, if_neg hks] at hkv
    obtain ⟨hk1, hkB, d', hdec', hrec'⟩ := hg k v hkv
    refine ⟨hk1, by omega, d', hdec', hrec'.1, hrec'.2.1, hrec'.2.2.1, ?_⟩
    intro p hp
    obtain ⟨hp1, hpk, T, hmatT, hTd, hTs⟩ := hrec'.2.2.2 p hp
    exact ⟨hp1, hpk, T, by
      rw [mat_frame db (save_statediff db ssh d) B hagree hg p (by omega)]
      exact hmatT, hTd, hTs⟩

/-- The root-case write of `save_state_from_diff`: conclusions of the
master lemma for an empty parent stack. -/
lemma master_write_root (db : DB) (B ssh : Nat) (a r : Finset Bytes)
    (hg : GoodDB db B) (hB1 : 1 ≤ B) (hfresh : B ≤ ssh)
    (hav : ∀ c ∈ a, valid16 c) (hrv : ∀ c ∈ r, valid16 c) (hrem : r = ∅) :
    (∀ k, k ≠ ssh → save_statediff db ssh ⟨none, a, r⟩ k = db k) ∧
    GoodDB (save_statediff db ssh ⟨none, a, r⟩) (ssh + 1) ∧
    ∃ st, load_shortstatehash_info (ssh + 1)
        (save_statediff db ssh ⟨none, a, r⟩) ssh = some st ∧
      st.length ≤ 4 ∧
      st.getLast?.map (fun e => e.full_state) = some ((∅ ∪ a) \ r) ∧
      st.getLast?.map (fun e => e.shortstatehash) = some ssh := by
  have hdec : decodeStateDiff (save_statediff_value ⟨none, a, r⟩) =
      some ⟨none, a, r⟩ :=
    decode_save_statediff_value ⟨none, a, r⟩ hav hrv (fun p hp => by simp at hp)
  have hget : get_statediff (save_statediff db ssh ⟨none, a, r⟩) ssh =
      some ⟨none, a, r⟩ := by
    rw [get_statediff, save_statediff, if_pos rfl]
    exact hdec
  refine ⟨fun k hk => by rw [save_statediff, if_neg hk], ?_, ?_⟩
  · exact goodDB_extend db B ssh ⟨none, a, r⟩ hg hfresh (by omega) hdec
      ⟨hav, hrv, fun _ => hrem, fun p hp => by simp at hp⟩
  · refine ⟨[⟨ssh, a, a, r⟩], ?_, by simp, ?_, ?_⟩
    · exact load_unfold_root (save_statediff db ssh ⟨none, a, r⟩) ssh ssh
        ⟨none, a, r⟩ hget rfl
    · simp [hrem]
    · simp

/-- The child-case write of `save_state_from_diff`: conclusions of the
master lemma when a new layer is stacked on the tip. -/
lemma master_write_child (db : DB) (B ssh : Nat) (a r : Finset Bytes)
    (stack : List ShortStateInfo) (e : ShortStateInfo) (rest : List ShortStateInfo)
    (hrev : stack.reverse = e :: rest)
    (hchain : ChainR db (e :: rest))
    (hbound : ∀ x ∈ stack, x.shortstatehash < B)
    (hg : GoodDB db B) (hB1 : 1 ≤ B) (hfresh : B ≤ ssh) (hu : ssh < u64Bound)
    (hav : ∀ c ∈ a, valid16 c) (hrv : ∀ c ∈ r, valid16 c)
    (hdisj : a ∩ e.full_state = ∅) (hsub : r ⊆ e.full_state)
    (hlen : stack.length ≤ 3) :
    (∀ k, k ≠ ssh →
      save_statediff db ssh ⟨some e.shortstatehash, a, r⟩ k = db k) ∧
    GoodDB (save_statediff db ssh ⟨some e.shortstatehash, a, r⟩) (ssh + 1) ∧
    ∃ st, load_shortstatehash_info (ssh + 1)
        (save_statediff db ssh ⟨some e.shortstatehash, a, r⟩) ssh = some st ∧
      st.length ≤ 4 ∧
      st.getLast?.map (fun x => x.full_state) = some ((e.full_state ∪ a) \ r) ∧
      st.getLast?.map (fun x => x.shortstatehash) = some ssh := by
  have heB : e.shortstatehash < B := by
    apply hbound
    rw [← List.mem_reverse, hrev]
    simp
  have he1 : 1 ≤ e.shortstatehash := hchain.2.2.2.2.2.1
  have hdec : decodeStateDiff (save_statediff_value ⟨some e.shortstatehash, a, r⟩) =
      some ⟨some e.shortstatehash, a, r⟩ :=
    decode_save_statediff_value ⟨some e.shortstatehash, a, r⟩ hav hrv
      (fun p hp => by
        obtain rfl : e.shortstatehash = p := by injection hp
        exact ⟨he1, by omega⟩)
  have hagree : ∀ k, k < B →
      save_statediff db ssh ⟨some e.shortstatehash, a, r⟩ k = db k := by
    intro k hk
    rw [save_statediff, if_neg (by omega)]
  have hget : get_statediff (save_statediff db ssh ⟨some e.shortstatehash, a, r⟩)
      ssh = some ⟨some e.shortstatehash, a, r⟩ := by
    rw [get_statediff, save_statediff, if_pos rfl]
    exact hdec
  have hloade : load_shortstatehash_info (e.shortstatehash + 1)
      (save_statediff db ssh ⟨some e.shortstatehash, a, r⟩) e.shortstatehash =
      some ((e :: rest).reverse) := by
    rw [load_frame db (save_statediff db ssh ⟨some e.shortstatehash, a, r⟩) B
      hagree hg _ _ heB]
    exact hchain.2.1
  have hmate : mat (save_statediff db ssh ⟨some e.shortstatehash, a, r⟩)
      e.shortstatehash = some e.full_state := by
    rw [mat, hloade]
    simp [List.getLast?_reverse]
  refine ⟨fun k hk => by rw [save_statediff, if_neg hk], ?_, ?_⟩
  · refine goodDB_extend db B ssh ⟨some e.shortstatehash, a, r⟩ hg hfresh
      (by omega) hdec ⟨hav, hrv, fun h => by simp at h, ?_⟩
    intro p hp
    obtain rfl : e.shortstatehash = p := by injection hp
    exact ⟨he1, by omega, e.full_state, hmate, hdisj, hsub⟩
  · have hloadm : load_shortstatehash_info ssh
        (save_statediff db ssh ⟨some e.shortstatehash, a, r⟩) e.shortstatehash =
        some ((e :: rest).reverse) :=
      load_mono _ _ _ _ _ hloade (by omega)
    have hstep := load_unfold_step
      (save_statediff db ssh ⟨some e.shortstatehash, a, r⟩) ssh ssh
      ⟨some e.shortstatehash, a, r⟩ e.shortstatehash hget rfl
      ((e :: rest).reverse) e ?hl ?hlast
    case hl =>
      exact load_mono _ _ _ _ _ hloade (by omega)
    case hlast =>
      rw [List.getLast?_reverse]
      rfl
    refine ⟨(e :: rest).reverse ++
      [⟨ssh, (e.full_state ∪ a) \ r, a, r⟩], ?_, ?_, ?_, ?_⟩
    · exact hstep
    · have : stack.length = (e :: rest).length := by
        rw [← List.length_reverse stack, hrev]
      simp only [List.length_append, List.length_reverse]
      simp at this ⊢
      omega
    · rw [List.getLast?_concat]
      rfl
    · rw [List.getLast?_concat]
      rfl

/-- The master lemma of the layer engine: on a well-formed store and a
coherent parent stack with a genuine incoming diff, a successful
`save_state_from_diff` writes exactly one fresh record, keeps the store
well-formed, and the new key loads to a stack of at most 4 layers whose
tip materializes the intended target state; an error leaves the store
untouched. -/
lemma save_state_from_diff_master :
    ∀ n (stack : List ShortStateInfo), stack.length = n →
    ∀ (db : DB) (B ssh s : Nat) (a r : Finset Bytes),
    GoodDB db B → 1 ≤ B → B ≤ ssh → ssh < u64Bound →
    ChainR db stack.reverse →
    (∀ e ∈ stack, e.shortstatehash < B) →
    (∀ c ∈ a, valid16 c) → (∀ c ∈ r, valid16 c) →
    a ∩ fullTip stack = ∅ → r ⊆ fullTip stack →
    ∀ db2 u, save_state_from_diff db ssh a r s stack = (db2, u) →
      (u = none → db2 = db) ∧
      (u = some () →
        (∀ k, k ≠ ssh → db2 k = db k) ∧
        GoodDB db2 (ssh + 1) ∧
        ∃ st, load_shortstatehash_info (ssh + 1) db2 ssh = some st ∧
          st.length ≤ 4 ∧
          st.getLast?.map (fun x => x.full_state) =
            some ((fullTip stack ∪ a) \ r) ∧
          st.getLast?.map (fun x => x.shortstatehash) = some ssh) := by
  intro n
  induction n using Nat.strong_induction_on with
  | _ n ih =>
    intro stack hlen db B ssh s a r hg hB1 hfresh hu hchain hbound hav hrv hdisj
      hsub db2 u hrun
    have herr : ((db, (none : Option Unit)) = (db2, u)) →
        (u = none → db2 = db) ∧
        (u = some () →
          (∀ k, k ≠ ssh → db2 k = db k) ∧
          GoodDB db2 (ssh + 1) ∧
          ∃ st, load_shortstatehash_info (ssh + 1) db2 ssh = some st ∧
            st.length ≤ 4 ∧
            st.getLast?.map (fun x => x.full_state) =
              some ((fullTip stack ∪ a) \ r) ∧
            st.getLast?.map (fun x => x.shortstatehash) = some ssh) := by
      intro h
      injection h with h1 h2
      subst h1
      rw [← h2]
      exact ⟨fun _ => rfl, fun hc => by simp at hc⟩
    have hfold : ∀ e rest, stack.reverse = e :: rest →
        save_state_from_diff db ssh (foldDiff e.added e.removed a r).1
          (foldDiff e.added e.removed a r).2 (a.card + r.card)
          stack.dropLast = (db2, u) →
        (u = none → db2 = db) ∧
        (u = some () →
          (∀ k, k ≠ ssh → db2 k = db k) ∧
          GoodDB db2 (ssh + 1) ∧
          ∃ st, load_shortstatehash_info (ssh + 1) db2 ssh = some st ∧
            st.length ≤ 4 ∧
            st.getLast?.map (fun x => x.full_state) =
              some ((fullTip stack ∪ a) \ r) ∧
            st.getLast?.map (fun x => x.shortstatehash) = some ssh) := by
      intro e rest hrev hrun'
      have hch : ChainR db (e :: rest) := by rw [← hrev]; exact hchain
      obtain ⟨hv1, hv2, hgd, hgs, htarget, hdrop, hchain'⟩ :=
        fold_step_hyps db stack e rest hrev a r hch hav hrv hdisj hsub
      have hbound' : ∀ x ∈ stack.dropLast, x.shortstatehash < B := fun x hx =>
        hbound x (List.dropLast_subset stack hx)
      have hlt : stack.dropLast.length < n := by
        rw [List.length_dropLast]
        have : stack.length ≠ 0 := by
          intro h0
          rw [List.length_eq_zero.mp h0] at hrev
          simp at hrev
        omega
      have hres := ih stack.dropLast.length hlt stack.dropLast rfl db B ssh
        (a.card + r.card) (foldDiff e.added e.removed a r).1
        (foldDiff e.added e.removed a r).2 hg hB1 hfresh hu hchain' hbound'
        hv1 hv2 hgd hgs db2 u hrun'
      refine ⟨hres.1, fun hu' => ?_⟩
      obtain ⟨hagree, hgood, st, hload, hlen4, hfull, hssh⟩ := hres.2 hu'
      exact ⟨hagree, hgood, st, hload, hlen4, by rw [hfull, htarget], hssh⟩
    rw [save_state_from_diff] at hrun
    by_cases hD : a.card + r.card < u64Bound
    · rw [show checkedAdd a.card r.card = some (a.card + r.card) from by
        rw [checkedAdd, if_pos hD]] at hrun
      dsimp only at hrun
      by_cases h3 : stack.length > 3
      · rw [if_pos h3] at hrun
        obtain ⟨e, rest, hrev⟩ : ∃ e rest, stack.reverse = e :: rest := by
          cases hsr : stack.reverse with
          | nil =>
            have : stack = [] := by simpa using congrArg List.reverse hsr
            rw [this] at h3
            simp at h3
          | cons e rest => exact ⟨e, rest, rfl⟩
        rw [getLast?_of_reverse stack e rest hrev] at hrun
        dsimp only at hrun
        exact hfold e rest hrev hrun
      · rw [if_neg h3] at hrun
        by_cases hemp : stack.isEmpty = true
        · rw [if_pos hemp] at hrun
          obtain rfl : stack = [] := List.isEmpty_iff.mp hemp
          injection hrun with h1 h2
          have hrem : r = ∅ := Finset.subset_empty.mp hsub
          refine ⟨fun hn => by rw [← h2] at hn; simp at hn, fun _ => ?_⟩
          rw [← h1]
          obtain ⟨hagree, hgood, st, hload, hl4, hfull, hssh⟩ :=
            master_write_root db B ssh a r hg hB1 hfresh hav hrv hrem
          exact ⟨hagree, hgood, st, hload, hl4, hfull, hssh⟩
        · rw [if_neg hemp] at hrun
          obtain ⟨e, rest, hrev⟩ : ∃ e rest, stack.reverse = e :: rest := by
            cases hsr : stack.reverse with
            | nil =>
              have : stack = [] := by simpa using congrArg List.reverse hsr
              rw [this] at hemp
              simp at hemp
            | cons e rest => exact ⟨e, rest, rfl⟩
          rw [getLast?_of_reverse stack e rest hrev] at hrun
          dsimp only at hrun
          by_cases hP : e.added.card + e.removed.card < u64Bound
          · rw [show checkedAdd e.added.card e.removed.card =
                some (e.added.card + e.removed.card) from by
              rw [checkedAdd, if_pos hP]] at hrun
            dsimp only at hrun
            by_cases hDD : (a.card + r.card) * (a.card + r.card) < u64Bound
            · rw [show checkedMul (a.card + r.card) (a.card + r.card) =
                  some ((a.card + r.card) * (a.card + r.card)) from by
                rw [checkedMul, if_pos hDD]] at hrun
              dsimp only at hrun
              by_cases h2s : 2 * s < u64Bound
              · rw [show checkedMul 2 s = some (2 * s) from by
                  rw [checkedMul, if_pos h2s]] at hrun
                rw [show (some (2 * s)).bind
                    (fun x => checkedMul x (e.added.card + e.removed.card)) =
                    checkedMul (2 * s) (e.added.card + e.removed.card) from rfl]
                  at hrun
                by_cases h2sp :
                    2 * s * (e.added.card + e.removed.card) < u64Bound
                · rw [show checkedMul (2 * s) (e.added.card + e.removed.card) =
                      some (2 * s * (e.added.card + e.removed.card)) from by
                    rw [checkedMul, if_pos h2sp]] at hrun
                  dsimp only at hrun
                  by_cases hcmp : (a.card + r.card) * (a.card + r.card) ≥
                      2 * s * (e.added.card + e.removed.card)
                  · rw [if_pos hcmp] at hrun
                    exact hfold e rest hrev hrun
                  · rw [if_neg hcmp] at hrun
                    injection hrun with h1 h2
                    have hT := fullTip_of_reverse stack e rest hrev
                    have hch : ChainR db (e :: rest) := by
                      rw [← hrev]
                      exact hchain
                    refine ⟨fun hn => by rw [← h2] at hn; simp at hn,
                      fun _ => ?_⟩
                    rw [← h1]
                    obtain ⟨hagree, hgood, st, hload, hl4, hfull, hssh⟩ :=
                      master_write_child db B ssh a r stack e rest hrev hch
                        hbound hg hB1 hfresh hu hav hrv
                        (by rw [← hT]; exact hdisj) (by rw [← hT]; exact hsub)
                        (by omega)
                    exact ⟨hagree, hgood, st, hload, hl4,
                      by rw [hfull, hT], hssh⟩
                · rw [show checkedMul (2 * s) (e.added.card + e.removed.card) =
                      none from by rw [checkedMul, if_neg h2sp]] at hrun
                  exact herr hrun
              · rw [show checkedMul 2 s = none from by
                  rw [checkedMul, if_neg h2s]] at hrun
                rw [show (none : Option Nat).bind
                    (fun x => checkedMul x (e.added.card + e.removed.card)) =
                    none from rfl] at hrun
                exact herr hrun
            · rw [show checkedMul (a.card + r.card) (a.card + r.card) = none from
                by rw [checkedMul, if_neg hDD]] at hrun
              exact herr hrun
          · rw [show checkedAdd e.added.card e.removed.card = none from by
              rw [checkedAdd, if_neg hP]] at hrun
            exact herr hrun
    · rw [show checkedAdd a.card r.card = none from by
        rw [checkedAdd, if_neg hD]] at hrun
      exact herr hrun

/-! ## The save path invariant -/

/-- The state hash `save_state` computes for a set: the canonical
enumeration fed through `calculate_hash`. -/
def canonHash (S : Finset Bytes) : List Bytes := calculate_hash (S.sort (· ≤ ·))

lemma canonHash_eq_sort (S : Finset Bytes) : canonHash S = S.sort (· ≤ ·) := by
  rw [canonHash, calculate_hash]
  exact List.mergeSort_eq_self (Finset.sort_sorted _ _)

lemma canonHash_inj (S1 S2 : Finset Bytes) (h : canonHash S1 = canonHash S2) :
    S1 = S2 := by
  rw [canonHash_eq_sort, canonHash_eq_sort] at h
  have := congrArg List.toFinset h
  rwa [Finset.sort_toFinset, Finset.sort_toFinset] at this

/-- In a table with duplicate-free keys, lookup finds exactly the stored
entry. -/
lemma find?_of_mem_nodup (l : List (List Bytes × Nat)) (h : List Bytes) (id : Nat)
    (hmem : (h, id) ∈ l) (hnd : (l.map Prod.fst).Nodup) :
    l.find? (fun e => e.1 = h) = some (h, id) := by
  induction l with
  | nil => simp at hmem
  | cons e l ih =>
    have hnd' : (e.1 :: l.map Prod.fst).Nodup := by
      rw [← List.map_cons]
      exact hnd
    obtain ⟨hknd, hlnd⟩ := List.nodup_cons.mp hnd'
    rcases List.mem_cons.mp hmem with rfl | hmem'
    · rw [List.find?_cons_of_pos _ (by simp)]
    · have hke : e.1 ≠ h := by
        intro hkeq
        apply hknd
        rw [hkeq]
        exact List.mem_map.mpr ⟨(h, id), hmem', rfl⟩
      rw [List.find?_cons_of_neg _ (by simpa using hke)]
      exact ih hmem' hlnd

/-- The reachable-state invariant of the save path: fresh ids start at 1,
the store is well-formed below the next id, interner keys are unique, and
every interned id loads to a stack of at most 4 layers materializing a
well-formed set whose canonical hash is the interned key; the room index
points at an interned id. -/
structure Inv (σ : Sys) : Prop where
  next1 : 1 ≤ σ.next
  good : GoodDB σ.db σ.next
  tblKeys : (σ.shorttable.map Prod.fst).Nodup
  tbl : ∀ h id, (h, id) ∈ σ.shorttable → 1 ≤ id ∧ id < σ.next ∧
    ∃ S st, canonHash S = h ∧ (∀ c ∈ S, valid16 c) ∧
      load_shortstatehash_info (id + 1) σ.db id = some st ∧ st.length ≤ 4 ∧
      st.getLast?.map (fun x => x.full_state) = some S
  room : ∀ p, σ.roomSsh = some p → ∃ h, (h, p) ∈ σ.shorttable

/-- The initial system satisfies the invariant. -/
lemma inv_initSys : Inv initSys := by
  refine ⟨le_refl 1, ?_, by simp [initSys], ?_, ?_⟩
  · intro k v hkv
    simp [initSys] at hkv
  · intro h id hmem
    simp [initSys] at hmem
  · intro p hp
    simp [initSys] at hp

/-- One successful `save_state` call from an invariant state: the
invariant is re-established with the room index pointing at the returned
SSH, the store grows only at fresh keys, and the returned SSH loads to a
stack of at most 4 layers materializing exactly the saved set. -/
lemma save_state_step (σ : Sys) (S : Finset Bytes)
    (hInv : Inv σ) (hSv : ∀ c ∈ S, valid16 c) (hnu : σ.next < u64Bound)
    (σ2 : Sys) (res : Option (Nat × Finset Bytes × Finset Bytes))
    (hsave : save_state σ S = (σ2, res)) :
    ∀ ssh aa rr, res = some (ssh, aa, rr) →
      Inv { σ2 with roomSsh := some ssh } ∧
      σ.next ≤ σ2.next ∧ σ2.next ≤ σ.next + 1 ∧
      (∀ k, k < σ.next → σ2.db k = σ.db k) ∧
      1 ≤ ssh ∧ ssh < σ2.next ∧
      ∃ st, load_shortstatehash_info (ssh + 1) σ2.db ssh = some st ∧
        st.length ≤ 4 ∧ st.getLast?.map (fun x => x.full_state) = some S := by
  rw [save_state, get_or_create_shortstatehash] at hsave
  cases hfind : σ.shorttable.find?
      (fun e => e.1 = calculate_hash (S.sort (· ≤ ·))) with
  | some entry =>
    obtain ⟨eh, eid⟩ := entry
    rw [hfind] at hsave
    try dsimp only at hsave
    have hkey : eh = calculate_hash (S.sort (· ≤ ·)) := by
      have := List.find?_some hfind
      simpa using this
    have hmem : (eh, eid) ∈ σ.shorttable := List.mem_of_find?_eq_some hfind
    obtain ⟨h1id, hidlt, S', st', hch', hS'v, hload', hlen', hfull'⟩ :=
      hInv.tbl eh eid hmem
    have hSS : S' = S := canonHash_inj S' S (by rw [hch', hkey]; rfl)
    rw [hSS] at hfull'
    have hconc : Inv { σ with roomSsh := some eid } ∧
        σ.next ≤ σ.next ∧ σ.next ≤ σ.next + 1 ∧
        (∀ k, k < σ.next → σ.db k = σ.db k) ∧
        1 ≤ eid ∧ eid < σ.next ∧
        ∃ st, load_shortstatehash_info (eid + 1) σ.db eid = some st ∧
          st.length ≤ 4 ∧ st.getLast?.map (fun x => x.full_state) = some S := by
      refine ⟨⟨hInv.next1, hInv.good, hInv.tblKeys, hInv.tbl, ?_⟩,
        le_refl _, by omega, fun _ _ => rfl, h1id, hidlt, st', hload', hlen',
        hfull'⟩
      intro p hp
      obtain rfl : eid = p := by injection hp
      exact ⟨eh, hmem⟩
    by_cases hprev : some eid = σ.roomSsh
    · rw [if_pos hprev] at hsave
      injection hsave with h1 h2
      subst h1
      subst h2
      intro ssh aa rr hres
      obtain rfl : eid = ssh := by
        injection hres with hres1
        exact congrArg Prod.fst hres1
      exact hconc
    · rw [if_neg hprev] at hsave
      try dsimp only at hsave
      injection hsave with h1 h2
      subst h1
      subst h2
      intro ssh aa rr hres
      obtain rfl : eid = ssh := by
        injection hres with hres1
        injection hres1
      exact ⟨hconc.1, hconc.2.1, hconc.2.2.1, hconc.2.2.2.1, hconc.2.2.2.2.1,
        hconc.2.2.2.2.2.1, hconc.2.2.2.2.2.2⟩
  | none =>
    rw [hfind] at hsave
    try dsimp only at hsave
    have hne : ¬(some σ.next = σ.roomSsh) := by
      intro heq
      obtain ⟨h', hmem'⟩ := hInv.room σ.next heq.symm
      exact absurd (hInv.tbl h' σ.next hmem').2.1 (lt_irrefl _)
    rw [if_neg hne] at hsave
    try dsimp only at hsave
    have hhashfresh : calculate_hash (S.sort (· ≤ ·)) ∉
        σ.shorttable.map Prod.fst := by
      intro hhm
      obtain ⟨x, hx, hxk⟩ := List.mem_map.mp hhm
      have := List.find?_eq_none.mp hfind x hx
      simp [hxk] at this
    cases hroom : σ.roomSsh with
    | some p =>
      rw [hroom] at hsave
      try dsimp only at hsave
      obtain ⟨h', hmem'⟩ := hInv.room p hroom
      obtain ⟨hp1, hplt, S', st', hch', hS'v, hload', hlen', hfull'⟩ :=
        hInv.tbl h' p hmem'
      obtain ⟨v, hv⟩ := load_some_db σ.db p p st' hload'
      obtain ⟨e, rest, hloadgd, hchain, hsshe⟩ :=
        goodDB_load σ.db σ.next hInv.good p v hv
      obtain rfl : st' = (e :: rest).reverse := by
        rw [hload'] at hloadgd
        injection hloadgd
      rw [hload'] at hsave
      simp only [Option.getD_some] at hsave
      rw [show ((e :: rest).reverse).getLast? = some e from by
        rw [List.getLast?_reverse]; rfl] at hsave
      simp only [Bool.false_eq_true, if_false] at hsave
      try dsimp only at hsave
      have hT : fullTip ((e :: rest).reverse) = e.full_state :=
        fullTip_of_reverse _ e rest (by rw [List.reverse_reverse])
      have hbound : ∀ x ∈ (e :: rest).reverse, x.shortstatehash < σ.next := by
        intro x hx
        rw [List.mem_reverse] at hx
        rcases List.mem_cons.mp hx with rfl | hx'
        · omega
        · have := hchain.2.2.2.2.2.2.1 x hx'
          omega
      have hfullv : ∀ c ∈ e.full_state, valid16 c := hchain.2.2.2.2.2.2.2
      cases hssfd : save_state_from_diff σ.db σ.next (S \ e.full_state)
          (e.full_state \ S) 2 ((e :: rest).reverse) with
      | mk db2 u =>
        have hM := save_state_from_diff_master ((e :: rest).reverse).length
          ((e :: rest).reverse) rfl σ.db σ.next σ.next 2 (S \ e.full_state)
          (e.full_state \ S) hInv.good hInv.next1 (le_refl _) hnu
          (by rw [List.reverse_reverse]; exact hchain) hbound
          (fun c hc => hSv c (Finset.sdiff_subset hc))
          (fun c hc => hfullv c (Finset.sdiff_subset hc))
          (by rw [hT]; exact Finset.sdiff_inter_self _ _)
          (by rw [hT]; exact Finset.sdiff_subset)
          db2 u hssfd
        rw [hssfd] at hsave
        cases u with
        | none =>
          try dsimp only at hsave
          injection hsave with h1 h2
          intro ssh aa rr hres
          rw [← h2] at hres
          simp at hres
        | some uu =>
          obtain rfl : uu = () := rfl
          try dsimp only at hsave
          injection hsave with h1 h2
          subst h1
          subst h2
          intro ssh aa rr hres
          obtain rfl : σ.next = ssh := by
            injection hres with hres1
            injection hres1
          obtain ⟨hagree, hgood, st, hload, hl4, hfull, hsshlast⟩ :=
            hM.2 rfl
          have hfullS : st.getLast?.map (fun x => x.full_state) = some S := by
            rw [hfull, hT, diff_apply_self]
          have hagree' : ∀ k, k < σ.next → db2 k = σ.db k := fun k hk =>
            hagree k (by omega)
          have hn1 := hInv.next1
          have hInvNew : Inv ⟨db2,
              (calculate_hash (S.sort (· ≤ ·)), σ.next) :: σ.shorttable,
              σ.next + 1, some σ.next⟩ := by
            refine ⟨by show 1 ≤ σ.next + 1; omega, hgood, ?_, ?_, ?_⟩
            · show (((calculate_hash (S.sort (· ≤ ·)), σ.next) ::
                σ.shorttable).map Prod.fst).Nodup
              rw [List.map_cons]
              exact List.nodup_cons.mpr ⟨hhashfresh, hInv.tblKeys⟩
            · intro h0 id0 hmem0
              rcases List.mem_cons.mp hmem0 with heq | hmem0'
              · obtain ⟨rfl, rfl⟩ : calculate_hash (S.sort (· ≤ ·)) = h0 ∧
                    σ.next = id0 := by
                  constructor
                  · exact (congrArg Prod.fst heq).symm
                  · exact (congrArg Prod.snd heq).symm
                exact ⟨by omega, by show σ.next < σ.next + 1; omega, S, st, rfl,
                  hSv, hload, hl4, hfullS⟩
              · obtain ⟨hid1, hidlt0, S0, st0, hch0, hS0v, hload0, hlen0,
                  hfull0⟩ := hInv.tbl h0 id0 hmem0'
                refine ⟨hid1, by show id0 < σ.next + 1; omega, S0, st0, hch0,
                  hS0v, ?_, hlen0, hfull0⟩
                show load_shortstatehash_info (id0 + 1) db2 id0 = some st0
                rw [load_frame σ.db db2 σ.next hagree' hInv.good _ id0
                  (by omega)]
                exact hload0
            · intro p0 hp0
              obtain rfl : σ.next = p0 := by injection hp0
              exact ⟨calculate_hash (S.sort (· ≤ ·)), by simp⟩
          exact ⟨hInvNew, Nat.le_succ _, Nat.le_refl _, hagree', hn1,
            Nat.lt_succ_self _, st, hload, hl4, hfullS⟩
    | none =>
      rw [hroom] at hsave
      simp only [List.getLast?_nil, Option.getD_none, Bool.false_eq_true,
        if_false] at hsave
      try dsimp only at hsave
      cases hssfd : save_state_from_diff σ.db σ.next S ∅ 2 [] with
      | mk db2 u =>
        have hM := save_state_from_diff_master 0 [] rfl σ.db σ.next σ.next 2
          S ∅ hInv.good hInv.next1 (le_refl _) hnu trivial (by simp) hSv
          (by simp) (Finset.inter_empty S) (Finset.empty_subset _) db2 u hssfd
        rw [hssfd] at hsave
        cases u with
        | none =>
          try dsimp only at hsave
          injection hsave with h1 h2
          intro ssh aa rr hres
          rw [← h2] at hres
          simp at hres
        | some uu =>
          obtain rfl : uu = () := rfl
          try dsimp only at hsave
          injection hsave with h1 h2
          subst h1
          subst h2
          intro ssh aa rr hres
          obtain rfl : σ.next = ssh := by
            injection hres with hres1
            injection hres1
          obtain ⟨hagree, hgood, st, hload, hl4, hfull, hsshlast⟩ :=
            hM.2 rfl
          have hfullS : st.getLast?.map (fun x => x.full_state) = some S := by
            rw [hfull]
            congr 1
            simp [fullTip, headFull]
          have hagree' : ∀ k, k < σ.next → db2 k = σ.db k := fun k hk =>
            hagree k (by omega)
          have hn1 := hInv.next1
          have hInvNew : Inv ⟨db2,
              (calculate_hash (S.sort (· ≤ ·)), σ.next) :: σ.shorttable,
              σ.next + 1, some σ.next⟩ := by
            refine ⟨by show 1 ≤ σ.next + 1; omega, hgood, ?_, ?_, ?_⟩
            · show (((calculate_hash (S.sort (· ≤ ·)), σ.next) ::
                σ.shorttable).map Prod.fst).Nodup
              rw [List.map_cons]
              exact List.nodup_cons.mpr ⟨hhashfresh, hInv.tblKeys⟩
            · intro h0 id0 hmem0
              rcases List.mem_cons.mp hmem0 with heq | hmem0'
              · obtain ⟨rfl, rfl⟩ : calculate_hash (S.sort (· ≤ ·)) = h0 ∧
                    σ.next = id0 := by
                  constructor
                  · exact (congrArg Prod.fst heq).symm
                  · exact (congrArg Prod.snd heq).symm
                exact ⟨by omega, by show σ.next < σ.next + 1; omega, S, st, rfl,
                  hSv, hload, hl4, hfullS⟩
              · obtain ⟨hid1, hidlt0, S0, st0, hch0, hS0v, hload0, hlen0,
                  hfull0⟩ := hInv.tbl h0 id0 hmem0'
                refine ⟨hid1, by show id0 < σ.next + 1; omega, S0, st0, hch0,
                  hS0v, ?_, hlen0, hfull0⟩
                show load_shortstatehash_info (id0 + 1) db2 id0 = some st0
                rw [load_frame σ.db db2 σ.next hagree' hInv.good _ id0
                  (by omega)]
                exact hload0
            · intro p0 hp0
              obtain rfl : σ.next = p0 := by injection hp0
              exact ⟨calculate_hash (S.sort (· ≤ ·)), by simp⟩
          exact ⟨hInvNew, Nat.le_succ _, Nat.le_refl _, hagree', hn1,
            Nat.lt_succ_self _, st, hload, hl4, hfullS⟩

/-- Induction over a serialized run of `save_state` calls: the invariant
is maintained, old records are never touched, and every returned SSH
loads to a stack of at most 4 layers materializing exactly the set that
was saved. -/
lemma runSaves_master : ∀ (L : List (Finset Bytes)) (σ : Sys),
    Inv σ → (∀ S ∈ L, ∀ c ∈ S, valid16 c) → σ.next + L.length ≤ u64Bound →
    ∀ σf sshs, runSaves σ L = some (σf, sshs) →
      Inv σf ∧ σ.next ≤ σf.next ∧ σf.next ≤ σ.next + L.length ∧
      (∀ k, k < σ.next → σf.db k = σ.db k) ∧
      List.Forall₂ (fun S ssh => 1 ≤ ssh ∧ ssh < σf.next ∧
        ∃ st, load_shortstatehash_info (ssh + 1) σf.db ssh = some st ∧
          st.length ≤ 4 ∧
          st.getLast?.map (fun x => x.full_state) = some S) L sshs := by
  intro L
  induction L with
  | nil =>
    intro σ hInv hval hbound σf sshs hrun
    rw [runSaves] at hrun
    injection hrun with h1
    obtain ⟨rfl, rfl⟩ : σ = σf ∧ [] = sshs :=
      ⟨congrArg Prod.fst h1, congrArg Prod.snd h1⟩
    exact ⟨hInv, le_refl _, by simp, fun _ _ => rfl, List.Forall₂.nil⟩
  | cons S L ih =>
    intro σ hInv hval hbound σf sshs hrun
    rw [runSaves] at hrun
    cases hsv : save_state σ S with
    | mk σ2 res =>
      rw [hsv] at hrun
      cases res with
      | none => simp at hrun
      | some res3 =>
        obtain ⟨ssh, aa, rr⟩ := res3
        dsimp only at hrun
        obtain ⟨hInv2, hle1, hle2, hframe2, h1s, hs2, st0, hload0, hl40,
          hfull0⟩ :=
          save_state_step σ S hInv (hval S (by simp)) (by simp at hbound; omega)
            σ2 _ hsv ssh aa rr rfl
        cases hrun2 : runSaves { σ2 with roomSsh := some ssh } L with
        | none => rw [hrun2] at hrun; simp at hrun
        | some pair =>
          obtain ⟨σf', sshs'⟩ := pair
          rw [hrun2] at hrun
          dsimp only at hrun
          injection hrun with h1
          have hA : σf' = σf := congrArg Prod.fst h1
          have hB : ssh :: sshs' = sshs := congrArg Prod.snd h1
          obtain ⟨hInvf, hle1', hle2', hframef, hforall⟩ :=
            ih { σ2 with roomSsh := some ssh } hInv2
              (fun S' hS' => hval S' (by simp [hS']))
              (by simp at hbound ⊢; omega) σf' sshs' hrun2
          have hle1'' : σ2.next ≤ σf'.next := hle1'
          have hle2'' : σf'.next ≤ σ2.next + L.length := hle2'
          have hframef' : ∀ k, k < σ2.next → σf'.db k = σ2.db k := hframef
          rw [← hA, ← hB]
          refine ⟨hInvf, by omega, by simp; omega, ?_, ?_⟩
          · intro k hk
            rw [hframef' k (by omega)]
            exact hframe2 k hk
          · refine List.Forall₂.cons ⟨h1s, by omega, st0, ?_, hl40, hfull0⟩
              hforall
            rw [load_frame σ2.db σf'.db σ2.next hframef' hInv2.good _ ssh hs2]
            exact hload0

/-! ## Claim theorems about the save path -/

/-- C1: materialization soundness. For a serialized run of `save_state`
calls on one room (the room-state index fed back the returned SSH each
time) over well-formed CSE sets, each returned SSH loads to a stack whose
last entry's `full_state` equals the saved set exactly. The length bound
reflects that short ids are `u64`. -/
theorem save_state_materialization (L : List (Finset Bytes))
    (hv : ∀ S ∈ L, ∀ c ∈ S, valid16 c) (hlen : L.length < u64Bound)
    (σf : Sys) (sshs : List Nat)
    (hrun : runSaves initSys L = some (σf, sshs)) :
    List.Forall₂ (fun S ssh => ∃ st,
      load_shortstatehash_info (ssh + 1) σf.db ssh = some st ∧
      st.getLast?.map (fun x => x.full_state) = some S) L sshs := by
  have h := runSaves_master L initSys inv_initSys hv
    (by show 1 + L.length ≤ u64Bound; omega) σf sshs hrun
  refine h.2.2.2.2.imp ?_
  intro a b hR
  obtain ⟨-, -, st, h1, -, h3⟩ := hR
  exact ⟨st, h1, h3⟩


unseal List.merge List.mergeSort get_statediff_loop save_state_from_diff in
/-- C1 witness: a concrete two-save run, checked end to end. -/
theorem save_state_materialization_witness :
    ∃ σf sshs, runSaves initSys [{cseA}, {cseA, cseB}] = some (σf, sshs) ∧
      List.Forall₂ (fun S ssh => ∃ st,
        load_shortstatehash_info (ssh + 1) σf.db ssh = some st ∧
        st.getLast?.map (fun x => x.full_state) = some S)
        [{cseA}, {cseA, cseB}] sshs := by
  refine ⟨_, _, rfl, ?_⟩
  exact save_state_materialization [{cseA}, {cseA, cseB}] (by decide)
    (by decide) _ _ rfl

/-- C2: depth bound. After every successful `save_state` of the run, the
persisted parent chain from the returned SSH (the loaded stack) has at
most 4 layers. -/
theorem save_state_depth_bound (L : List (Finset Bytes))
    (hv : ∀ S ∈ L, ∀ c ∈ S, valid16 c) (hlen : L.length < u64Bound)
    (σf : Sys) (sshs : List Nat)
    (hrun : runSaves initSys L = some (σf, sshs)) :
    List.Forall₂ (fun _ ssh => ∃ st,
      load_shortstatehash_info (ssh + 1) σf.db ssh = some st ∧
      st.length ≤ 4) L sshs := by
  have h := runSaves_master L initSys inv_initSys hv
    (by show 1 + L.length ≤ u64Bound; omega) σf sshs hrun
  refine h.2.2.2.2.imp ?_
  intro a b hR
  obtain ⟨-, -, st, h1, h2, -⟩ := hR
  exact ⟨st, h1, h2⟩

unseal List.merge List.mergeSort get_statediff_loop save_state_from_diff in
/-- C2 witness: a concrete five-save run that exercises the depth cap. -/
theorem save_state_depth_bound_witness :
    ∃ σf sshs, runSaves initSys
        [{cseA}, {cseA, cseB}, {cseB}, {cseA, cseB}, {cseB, cseA, cseB}] =
        some (σf, sshs) ∧
      List.Forall₂ (fun _ ssh => ∃ st,
        load_shortstatehash_info (ssh + 1) σf.db ssh = some st ∧
        st.length ≤ 4)
        ([{cseA}, {cseA, cseB}, {cseB}, {cseA, cseB}, {cseB, cseA, cseB}] :
          List (Finset Bytes))
        sshs := by
  refine ⟨_, _, rfl, ?_⟩
  exact save_state_depth_bound
    [{cseA}, {cseA, cseB}, {cseB}, {cseA, cseB}, {cseB, cseA, cseB}]
    (by decide) (by decide) _ _ rfl

/-- C9: idempotent save. If the room's previous SSH materializes to `S`
and `save_state` is invoked again with the same `S`, nothing is written
(the whole system is unchanged) and the returned SSH is the previously
interned one with empty `added` and `removed`. -/
theorem save_state_idempotent (L : List (Finset Bytes))
    (hv : ∀ S ∈ L, ∀ c ∈ S, valid16 c) (hlen : L.length < u64Bound)
    (σf : Sys) (sshs : List Nat)
    (hrun : runSaves initSys L = some (σf, sshs))
    (p : Nat) (hroom : σf.roomSsh = some p) (S : Finset Bytes)
    (hmat : mat σf.db p = some S) :
    save_state σf S = (σf, some (p, ∅, ∅)) := by
  have hInvf : Inv σf := (runSaves_master L initSys inv_initSys hv
    (by show 1 + L.length ≤ u64Bound; omega) σf sshs hrun).1
  obtain ⟨h', hmem'⟩ := hInvf.room p hroom
  obtain ⟨hp1, hplt, S', st', hch', hS'v, hload', hlen', hfull'⟩ :=
    hInvf.tbl h' p hmem'
  have hmat' : mat σf.db p = some S' := by
    rw [mat, hload']
    exact hfull'
  have hSS : S' = S := by
    rw [hmat'] at hmat
    injection hmat
  rw [hSS] at hch'
  have hfind : σf.shorttable.find?
      (fun e => e.1 = calculate_hash (S.sort (· ≤ ·))) = some (h', p) := by
    have hce : calculate_hash (S.sort (· ≤ ·)) = h' := hch'
    rw [hce]
    exact find?_of_mem_nodup σf.shorttable h' p hmem' hInvf.tblKeys
  rw [save_state, get_or_create_shortstatehash, hfind]
  dsimp only
  rw [if_pos (by rw [hroom])]

unseal List.merge List.mergeSort get_statediff_loop save_state_from_diff in
/-- C9 witness: after one concrete save, saving the same set again
returns the same SSH with empty diffs and leaves the system untouched. -/
theorem save_state_idempotent_witness :
    ∃ σf sshs, runSaves initSys [{cseA}] = some (σf, sshs) ∧
      save_state σf {cseA} = (σf, some (1, ∅, ∅)) := by
  refine ⟨_, _, rfl, ?_⟩
  exact save_state_idempotent [{cseA}] (by decide) (by decide) _ _ rfl 1
    (by decide) {cseA} (by decide)

/-- Permutation invariance of the modelled stable hash. -/
lemma calculate_hash_perm (l1 l2 : List Bytes) (h : l1.Perm l2) :
    calculate_hash l1 = calculate_hash l2 := by
  rw [calculate_hash, calculate_hash]
  exact List.eq_of_perm_of_sorted
    (((List.mergeSort_perm l1 _).trans h).trans (List.mergeSort_perm l2 _).symm)
    (List.sorted_mergeSort' _) (List.sorted_mergeSort' _)

/-- C3: stable hashing. Any two duplicate-free enumerations of the same
set of CSEs (different insertion histories / iteration orders of the
`HashSet`) produce the same `state_hash`; the bytes `save_state` feeds to
`get_or_create_shortstatehash` (the canonical enumeration of the set) are
that same deterministic function of the membership, so the same SSH is
interned. -/
theorem calculate_hash_stable (S : Finset Bytes) (l1 l2 : List Bytes)
    (hnd1 : l1.Nodup) (hmem1 : ∀ x, x ∈ l1 ↔ x ∈ S)
    (hnd2 : l2.Nodup) (hmem2 : ∀ x, x ∈ l2 ↔ x ∈ S) :
    calculate_hash l1 = calculate_hash l2 ∧
    calculate_hash l1 = calculate_hash (S.sort (· ≤ ·)) ∧
    ∀ σ, get_or_create_shortstatehash σ (calculate_hash l1) =
      get_or_create_shortstatehash σ (calculate_hash (S.sort (· ≤ ·))) := by
  have hp1 : l1.Perm (S.sort (· ≤ ·)) :=
    (List.perm_ext_iff_of_nodup hnd1 (Finset.sort_nodup _ _)).mpr
      (fun a => by rw [hmem1 a, Finset.mem_sort])
  have hp2 : l2.Perm (S.sort (· ≤ ·)) :=
    (List.perm_ext_iff_of_nodup hnd2 (Finset.sort_nodup _ _)).mpr
      (fun a => by rw [hmem2 a, Finset.mem_sort])
  have h1 := calculate_hash_perm l1 (S.sort (· ≤ ·)) hp1
  have h2 := calculate_hash_perm l2 (S.sort (· ≤ ·)) hp2
  exact ⟨h1.trans h2.symm, h1, fun σ => by rw [h1]⟩

unseal List.merge List.mergeSort in
/-- C3 witness: two opposite enumerations of a two-element set hash
identically. -/
theorem calculate_hash_stable_witness :
    calculate_hash [cseA, cseB] = calculate_hash [cseB, cseA] ∧
    calculate_hash [cseA, cseB] =
      calculate_hash (({cseA, cseB} : Finset Bytes).sort (· ≤ ·)) ∧
    ∀ σ, get_or_create_shortstatehash σ (calculate_hash [cseA, cseB]) =
      get_or_create_shortstatehash σ
        (calculate_hash (({cseA, cseB} : Finset Bytes).sort (· ≤ ·))) :=
  calculate_hash_stable {cseA, cseB} [cseA, cseB] [cseB, cseA]
    (by decide) (by intro x; simp) (by decide) (by intro x; simp [or_comm])

/-- C10: compress/parse round-trip. `compress_state_event` yields exactly
16 bytes whose first 8 bytes are the big-endian encoding of the
short-state-key, and `parse_compressed_state_event` recovers the
short-state-key unconditionally and the original event id whenever the
interner's `get_eventid_from_short` is a left inverse of
`get_or_create_shorteventid` (with `u64`-sized short ids). -/
theorem compress_parse_roundtrip (ι : EventInterner) (shortstatekey : Nat)
    (event_id : Bytes) (hk : shortstatekey < u64Bound)
    (hsei : (get_or_create_shorteventid ι event_id).1 < u64Bound)
    (hinv : get_eventid_from_short (get_or_create_shorteventid ι event_id).2
      (get_or_create_shorteventid ι event_id).1 = some event_id) :
    (compress_state_event ι shortstatekey event_id).1.length = 16 ∧
    (compress_state_event ι shortstatekey event_id).1.take 8 =
      natToBytesBE 8 shortstatekey ∧
    parse_compressed_state_event (compress_state_event ι shortstatekey event_id).2
      (compress_state_event ι shortstatekey event_id).1 =
      some (shortstatekey, event_id) := by
  rw [compress_state_event]
  have hl1 : (natToBytesBE 8 shortstatekey).length = 8 := natToBytesBE_length _ _
  have hl2 : (natToBytesBE 8 (get_or_create_shorteventid ι event_id).1).length =
      8 := natToBytesBE_length _ _
  have h8 : (8 : Nat) ≤ (natToBytesBE 8 shortstatekey).length := by rw [hl1]
  have htk : (natToBytesBE 8 shortstatekey ++
      natToBytesBE 8 (get_or_create_shorteventid ι event_id).1).take 8 =
      natToBytesBE 8 shortstatekey := by
    rw [List.take_append_of_le_length h8]
    exact List.take_of_length_le (by rw [hl1])
  have hdr : (natToBytesBE 8 shortstatekey ++
      natToBytesBE 8 (get_or_create_shorteventid ι event_id).1).drop 8 =
      natToBytesBE 8 (get_or_create_shorteventid ι event_id).1 := by
    rw [List.drop_append_of_le_length h8, List.drop_eq_nil_of_le (by rw [hl1]),
      List.nil_append]
  refine ⟨by simp [List.length_append, hl1, hl2], htk, ?_⟩
  rw [parse_compressed_state_event]
  dsimp only
  rw [htk, hdr, bytesToNat_natToBytesBE, bytesToNat_natToBytesBE]
  rw [Nat.mod_eq_of_lt (by rw [u64Bound_eq]; exact hsei)]
  rw [hinv]
  rw [Nat.mod_eq_of_lt (by rw [u64Bound_eq]; exact hk)]

/-- C10 witness: the round-trip on a fresh interner and a concrete event
id. -/
theorem compress_parse_roundtrip_witness :
    (compress_state_event ⟨[], 1⟩ 3 [7]).1.length = 16 ∧
    (compress_state_event ⟨[], 1⟩ 3 [7]).1.take 8 = natToBytesBE 8 3 ∧
    parse_compressed_state_event (compress_state_event ⟨[], 1⟩ 3 [7]).2
      (compress_state_event ⟨[], 1⟩ 3 [7]).1 = some (3, [7]) :=
  compress_parse_roundtrip ⟨[], 1⟩ 3 [7] (by decide) (by decide) (by decide)

end StateCompressor
